import Mathlib

/-!
Verification of the subgraph transformation engine
(`tensorflow/contrib/graph_editor/transform.py`).

The development shallowly embeds the data model (operations, tensors,
graphs, subgraph views), the `Transformer` traversal (`_transform_t`,
`_transform_op`, `copy_op_handler`, `transform_op_if_inside_handler`),
the per-call context and result mapping (`Transformer._Info`,
`Transformer.ResultInfo`), and the targeted replacement algorithm
(`graph_replace`).  The recursive memoized walk is embedded with an
explicit fuel parameter (structural recursion on the fuel), so every
definition is executable; running out of fuel is reported as the
distinguished error `TErr.fuel`, which stands for divergence of the
unbounded Python recursion.

External collaborators that are not part of the source file
(`util.scope_finalize`, graph name uniquification, placeholder creation,
`subgraph.SubGraphView` boundary inference, and
`select.get_walks_intersection_ops`) are modelled from the spec; each
such definition carries a doc comment starting with `Modelled from the
spec:`.
-/

deriving instance DecidableEq for Except

/-- Errors of a transformation call.  `fuel` models divergence of the
unbounded recursion; `scopeMismatch` models the `ValueError` raised by
`Transformer.new_name` (the spec's ScopeMismatchError); `badGraph`
models malformed-graph accesses that can only occur on inputs that the
Python runtime would also reject. -/
inductive TErr where
  | fuel
  | scopeMismatch (name : String) (scope : String)
  | badGraph
deriving DecidableEq, Repr

/-- A tensor is identified by its producing operation id and its output
slot index (`t.op`, `t.value_index` in the source). -/
structure Tensor where
  op : Nat
  idx : Nat
deriving DecidableEq, Repr

/-- An operation: name, ordered data-input tensors, number of output
tensors (output `i` is `Tensor.mk id i`), control-input operation ids,
and the optional `_original_op` backlink. -/
structure Operation where
  id : Nat
  name : String
  inputs : List Tensor
  numOutputs : Nat
  controlInputs : List Nat
  originalOp : Option Nat
deriving DecidableEq, Repr

/-- A graph element: an operation or a tensor (used for collections and
for the result mapping). -/
inductive GElem where
  | opE (id : Nat)
  | tsE (t : Tensor)
deriving DecidableEq, Repr

/-- A graph: identity (`gid`, standing for Python object identity of
`tf.Graph`), owned operations, and named collections. -/
structure Graph where
  gid : Nat
  ops : List Operation
  collections : List (String × List GElem)
deriving DecidableEq, Repr

/-- Look an operation up by id. -/
def Graph.getOp (g : Graph) (i : Nat) : Option Operation :=
  g.ops.find? (fun o => decide (o.id = i))

/-- A subgraph view: member operation ids plus ordered boundary input
and output tensors (`sgv.ops`, `sgv.inputs`, `sgv.outputs`). -/
structure SubGraphView where
  ops : List Nat
  inputs : List Tensor
  outputs : List Tensor
deriving DecidableEq, Repr

/-- Association-list lookup with Python-dict semantics (first binding of
the key). -/
def alookup {α β : Type} [DecidableEq α] : List (α × β) → α → Option β
  | [], _ => none
  | (k', v) :: rest, k => if k' = k then some v else alookup rest k

/-- Association-list insert with Python-dict semantics: overwrite in
place if present, append otherwise. -/
def ainsert {α β : Type} [DecidableEq α] : List (α × β) → α → β → List (α × β)
  | [], k, v => [(k, v)]
  | (k', v') :: rest, k, v =>
    if k' = k then (k, v) :: rest else (k', v') :: ainsert rest k v

/-- Python's `str.startswith`, on the character lists underlying Lean
strings (Python string operations are character-based). -/
def strStartsWith (name scope : String) : Bool :=
  scope.data.isPrefixOf name.data

/-- Python's `str.endswith`, character-based. -/
def strEndsWith (name suffix : String) : Bool :=
  suffix.data.isSuffixOf name.data

/-- Python's character slicing `name[n:]`. -/
def strDrop (s : String) (n : Nat) : String :=
  ⟨s.data.drop n⟩

/-- Embeds `Transformer.new_name` (transform.py lines 565-582): the
destination name is the destination scope prefix followed by the source
name with the source scope prefix stripped; a source name that does not
start with the source scope raises (the spec's ScopeMismatchError). -/
def new_name (scope scope_ name : String) : Except TErr String :=
  if strStartsWith name scope then .ok (scope_ ++ strDrop name scope.length)
  else .error (.scopeMismatch name scope)

/-- Modelled from the spec: `util.scope_finalize` (an external utility)
normalizes a scope string to a canonical trailing-separator form. -/
def scope_finalize (s : String) : String :=
  if s = "" ∨ strEndsWith s "/" then s else s ++ "/"

/-- Modelled from the spec: graph name uniquification (the external
`tf.Graph.unique_name`): return the name itself when unused, otherwise
append an underscore and a digit. -/
def unique_name (used : List String) (n : String) : String :=
  if n ∈ used then
    match (List.range (used.length + 1)).find?
        (fun k => decide ((n ++ "_" ++ toString (k + 1)) ∉ used)) with
    | some k => n ++ "_" ++ toString (k + 1)
    | none => n
  else n

/-- C2: for every source name and every pair of source/destination scope
prefixes, `Transformer.new_name` returns the destination scope prefix
followed by the source name with the source scope prefix stripped
whenever the source name starts with the source scope prefix, and raises
the scope-mismatch error otherwise; in particular with source scope
`"a/"` and destination scope `"b/"` the name `"a/x/y"` becomes
`"b/x/y"`, and `"c/z"` raises. -/
theorem c2_new_name_translation :
    (∀ scope scope_ name : String, strStartsWith name scope = true →
      new_name scope scope_ name = .ok (scope_ ++ strDrop name scope.length)) ∧
    (∀ scope scope_ name : String, strStartsWith name scope = false →
      new_name scope scope_ name = .error (.scopeMismatch name scope)) ∧
    new_name "a/" "b/" "a/x/y" = .ok "b/x/y" ∧
    new_name "a/" "b/" "c/z" = .error (.scopeMismatch "c/z" "a/") := by
  refine ⟨?_, ?_, by decide, by decide⟩
  · intro scope scope_ name h
    simp [new_name, h]
  · intro scope scope_ name h
    simp [new_name, h]

/-- Witness for C2: the two conditional clauses applied at concrete
inputs. -/
theorem c2_new_name_translation_witness :
    new_name "p/" "q/" "p/t" = .ok ("q/" ++ strDrop "p/t" "p/".length) ∧
    new_name "p/" "q/" "zz" = .error (.scopeMismatch "zz" "p/") :=
  ⟨c2_new_name_translation.1 "p/" "q/" "p/t" (by decide),
   c2_new_name_translation.2.1 "p/" "q/" "zz" (by decide)⟩

/-- The external-input handler configuration
(`Transformer.transform_external_input_handler`): the default
`replace_t_with_placeholder_handler`, or the replacement handler
installed by `copy_with_input_replacements` (substitute a mapped
replacement tensor, else fall back to `keep_t_if_possible_handler`). -/
inductive ExtHandler where
  | placeholderH
  | replaceOrH (repl : List (Tensor × Tensor))
deriving DecidableEq, Repr

/-- The immutable part of `Transformer._Info`: originating subgraph
view, source and destination graphs, finalized scopes, and the handler
configuration.  (`info.control_outputs` is computed by the source but
never used in transform.py, so it is not modelled.) -/
structure Ctx where
  srcGraph : Graph
  dstGraph : Graph
  sgv : SubGraphView
  scope : String
  scope_ : String
  extHandler : ExtHandler
deriving Repr

/-- The mutable part of `Transformer._Info` plus the mutation record of
the destination graph: the two translation tables
(`info.transformed_ops`, `info.transformed_ts`), the operations created
in the destination graph (`newOps`), the destination collections filled
by `assign_renamed_collections_handler`, and a fresh-id counter.
`opLog` and `tLog` are ghost instrumentation: `opLog` records each
invocation of the operation-copy handler (`copy_op_handler`), `tLog`
records each tensor whose translation body (past the memo check in
`_transform_t`) is entered. -/
structure TState where
  transformedOps : List (Nat × Nat)
  transformedTs : List (Tensor × Tensor)
  opLog : List Nat
  tLog : List Tensor
  newOps : List Operation
  dstCollections : List (String × List GElem)
  nextId : Nat
deriving DecidableEq, Repr

/-- Names in use in the destination graph: its own operations plus the
operations created so far during the call. -/
def dstUsedNames (ctx : Ctx) (s : TState) : List String :=
  (ctx.dstGraph.ops ++ s.newOps).map (fun o => o.name)

/-- Modelled from the spec: `util.make_placeholder_from_tensor` (an
external utility) creates a fresh source node with one output under the
destination scope.  Together with the surrounding code this embeds
`replace_t_with_placeholder_handler` (transform.py lines 51-65). -/
def replace_t_with_placeholder (ctx : Ctx) (s : TState) (_t : Tensor) :
    TState × Tensor :=
  let nm := unique_name (dstUsedNames ctx s) (ctx.scope_ ++ "geph")
  let ph : Operation := ⟨s.nextId, nm, [], 1, [], none⟩
  ({ s with newOps := s.newOps ++ [ph], nextId := s.nextId + 1 },
   ⟨s.nextId, 0⟩)

/-- Embeds `keep_t_if_possible_handler` (transform.py lines 68-84):
the tensor itself when source and destination graph are identical,
otherwise a placeholder. -/
def keep_t_if_possible (ctx : Ctx) (s : TState) (t : Tensor) :
    TState × Tensor :=
  if ctx.srcGraph.gid = ctx.dstGraph.gid then (s, t)
  else replace_t_with_placeholder ctx s t

/-- Dispatch on the configured external-input handler; the
`replaceOrH` case embeds `replace_t_with_replacement_handler`
(transform.py lines 659-663). -/
def applyExtHandler (ctx : Ctx) (s : TState) (t : Tensor) :
    TState × Tensor :=
  match ctx.extHandler with
  | .placeholderH => replace_t_with_placeholder ctx s t
  | .replaceOrH repl =>
    match alookup repl t with
    | some r => (s, r)
    | none => keep_t_if_possible ctx s t

/-- Append an element to a named destination collection
(`graph_.add_to_collection`). -/
def addToCollection (cols : List (String × List GElem)) (nm : String)
    (e : GElem) : List (String × List GElem) :=
  match cols with
  | [] => [(nm, [e])]
  | (n, es) :: rest =>
    if n = nm then (n, es ++ [e]) :: rest
    else (n, es) :: addToCollection rest nm e

/-- Embeds `assign_renamed_collections_handler` (transform.py lines
87-101): for every source-graph collection containing the original
element, add the transformed element to the destination collection under
the scope-translated name (which can raise through `new_name`). -/
def assign_renamed_collections (ctx : Ctx) :
    TState → List (String × List GElem) → GElem → GElem →
    TState × Except TErr Unit
  | s, [], _, _ => (s, .ok ())
  | s, (nm, es) :: rest, e, e_ =>
    if e ∈ es then
      match new_name ctx.scope ctx.scope_ nm with
      | .error er => (s, .error er)
      | .ok nm_ =>
        assign_renamed_collections ctx
          { s with dstCollections := addToCollection s.dstCollections nm_ e_ }
          rest e e_
    else assign_renamed_collections ctx s rest e e_

/-- The tasks of the mutually recursive traversal, folded into one
recursion so that the fuel argument is structurally decreasing:
`tT` is `Transformer._transform_t`, `tOp` is `Transformer._transform_op`,
`tIf` is `transform_op_if_inside_handler`, `tCopy` is `copy_op_handler`,
`tTs` and `tCtrls` are the list traversals inside `copy_op_handler`
(inputs and control inputs). -/
inductive TTask where
  | tT (t : Tensor)
  | tOp (o : Nat)
  | tIf (o? : Option Nat) (keep : Bool)
  | tCopy (o : Nat)
  | tTs (ts : List Tensor)
  | tCtrls (cs : List Nat)
deriving DecidableEq, Repr

/-- Results of the traversal tasks, mirroring `TTask`. -/
inductive TVal where
  | vT (t : Tensor)
  | vOp (o : Nat)
  | vOpt (o? : Option Nat)
  | vTs (ts : List Tensor)
  | vCtrls (os : List (Option Nat))
deriving DecidableEq, Repr

/-- Memoize and return a transformed tensor: run the
collection-assignment handler when the identity changed, then record
the translation (`_transform_t`, transform.py lines 525-530). -/
def finishT (ctx : Ctx) (s : TState) (t t_ : Tensor) :
    TState × Except TErr TVal :=
  let (s, r) :=
    if t ≠ t_ then
      assign_renamed_collections ctx s ctx.srcGraph.collections (.tsE t) (.tsE t_)
    else (s, .ok ())
  match r with
  | .error e => (s, .error e)
  | .ok _ =>
    ({ s with transformedTs := ainsert s.transformedTs t t_ }, .ok (.vT t_))

/-- The recursive memoized traversal of the transformer, embedded with
an explicit fuel (every recursive call decrements the fuel; exhaustion
yields `TErr.fuel`, standing for divergence of the unbounded Python
recursion).  Cases:

* `tT t` embeds `Transformer._transform_t` (lines 499-530): memo-table
  check, then either recursive operation translation (member producer),
  the external-input handler (boundary input), or the hidden-input
  handler; collection assignment on identity change; memoization.
* `tOp o` embeds `Transformer._transform_op` (lines 532-563): memo-table
  check, the operation-copy handler, collection assignment on identity
  change, memoization.  (The ambient control-dependency registration and
  device-function stack of the destination graph are external graph
  state, out of the modelled scope.)
* `tIf o? keep` embeds `transform_op_if_inside_handler` (lines 104-127).
* `tCopy o` embeds `copy_op_handler` (lines 130-183): transform control
  inputs, then the original-op backlink, then data inputs, then clone
  under the scope-translated, graph-uniquified name.  (Shape copying is
  metadata outside the model.)
* `tTs`/`tCtrls` are the input/control-input list traversals of
  `copy_op_handler`. -/
def transform (ctx : Ctx) : Nat → TState → TTask → TState × Except TErr TVal
  | 0, s, _ => (s, .error .fuel)
  | f + 1, s, task =>
    match task with
    | .tT t =>
      match alookup s.transformedTs t with
      | some t_ => (s, .ok (.vT t_))
      | none =>
        let s := { s with tLog := s.tLog ++ [t] }
        if t.op ∈ ctx.sgv.ops then
          match transform ctx f s (.tOp t.op) with
          | (s, .ok (.vOp o_)) => finishT ctx s t ⟨o_, t.idx⟩
          | (s, .ok _) => (s, .error .badGraph)
          | (s, .error e) => (s, .error e)
        else
          if t ∈ ctx.sgv.inputs then
            let (s, t_) := applyExtHandler ctx s t
            finishT ctx s t t_
          else
            let (s, t_) := keep_t_if_possible ctx s t
            finishT ctx s t t_
    | .tOp o =>
      match alookup s.transformedOps o with
      | some o_ => (s, .ok (.vOp o_))
      | none =>
        match transform ctx f s (.tCopy o) with
        | (s, .ok (.vOp o_)) =>
          let (s, r) :=
            if o ≠ o_ then
              assign_renamed_collections ctx s ctx.srcGraph.collections
                (.opE o) (.opE o_)
            else (s, .ok ())
          match r with
          | .error e => (s, .error e)
          | .ok _ =>
            ({ s with transformedOps := ainsert s.transformedOps o o_ },
             .ok (.vOp o_))
        | (s, .ok _) => (s, .error .badGraph)
        | (s, .error e) => (s, .error e)
    | .tIf o? keep =>
      match o? with
      | none => (s, .ok (.vOpt none))
      | some o =>
        if o ∈ ctx.sgv.ops then
          match transform ctx f s (.tOp o) with
          | (s, .ok (.vOp o_)) => (s, .ok (.vOpt (some o_)))
          | (s, .ok _) => (s, .error .badGraph)
          | (s, .error e) => (s, .error e)
        else
          if keep ∧ ctx.srcGraph.gid = ctx.dstGraph.gid then
            (s, .ok (.vOpt (some o)))
          else (s, .ok (.vOpt none))
    | .tCopy o =>
      match ctx.srcGraph.getOp o with
      | none => (s, .error .badGraph)
      | some op =>
        let s := { s with opLog := s.opLog ++ [o] }
        match transform ctx f s (.tCtrls op.controlInputs) with
        | (s, .ok (.vCtrls cis)) =>
          match transform ctx f s (.tIf op.originalOp true) with
          | (s, .ok (.vOpt originalOp_)) =>
            match transform ctx f s (.tTs op.inputs) with
            | (s, .ok (.vTs inputs_)) =>
              match new_name ctx.scope ctx.scope_ op.name with
              | .error e => (s, .error e)
              | .ok nm0 =>
                let nm_ := unique_name (dstUsedNames ctx s) nm0
                let op_ : Operation :=
                  ⟨s.nextId, nm_, inputs_, op.numOutputs,
                   cis.filterMap id, originalOp_⟩
                ({ s with newOps := s.newOps ++ [op_],
                          nextId := s.nextId + 1 },
                 .ok (.vOp s.nextId))
            | (s, .ok _) => (s, .error .badGraph)
            | (s, .error e) => (s, .error e)
          | (s, .ok _) => (s, .error .badGraph)
          | (s, .error e) => (s, .error e)
        | (s, .ok _) => (s, .error .badGraph)
        | (s, .error e) => (s, .error e)
    | .tTs ts =>
      match ts with
      | [] => (s, .ok (.vTs []))
      | t :: rest =>
        match transform ctx f s (.tT t) with
        | (s, .ok (.vT t_)) =>
          match transform ctx f s (.tTs rest) with
          | (s, .ok (.vTs rest_)) => (s, .ok (.vTs (t_ :: rest_)))
          | (s, .ok _) => (s, .error .badGraph)
          | (s, .error e) => (s, .error e)
        | (s, .ok _) => (s, .error .badGraph)
        | (s, .error e) => (s, .error e)
    | .tCtrls cs =>
      match cs with
      | [] => (s, .ok (.vCtrls []))
      | c :: rest =>
        match transform ctx f s (.tIf (some c) true) with
        | (s, .ok (.vOpt c_)) =>
          match transform ctx f s (.tCtrls rest) with
          | (s, .ok (.vCtrls rest_)) => (s, .ok (.vCtrls (c_ :: rest_)))
          | (s, .ok _) => (s, .error .badGraph)
          | (s, .error e) => (s, .error e)
        | (s, .ok _) => (s, .error .badGraph)
        | (s, .error e) => (s, .error e)

/-- The forward-from-outputs pass of `Transformer.__call__` (lines
441-443): translate each boundary output tensor in order. -/
def transform_t_list (ctx : Ctx) (fuel : Nat) :
    TState → List Tensor → TState × Except TErr Unit
  | s, [] => (s, .ok ())
  | s, t :: rest =>
    match transform ctx fuel s (.tT t) with
    | (s, .ok _) => transform_t_list ctx fuel s rest
    | (s, .error e) => (s, .error e)

/-- The root-completion pass of `Transformer.__call__` (lines 445-451):
translate each remaining root operation in order. -/
def transform_op_list (ctx : Ctx) (fuel : Nat) :
    TState → List Nat → TState × Except TErr Unit
  | s, [] => (s, .ok ())
  | s, o :: rest =>
    match transform ctx fuel s (.tOp o) with
    | (s, .ok _) => transform_op_list ctx fuel s rest
    | (s, .error e) => (s, .error e)

/-- Concatenation of the per-operation lists produced by `f`. -/
def opsConcat {α : Type} (ops : List Operation) (f : Operation → List α) :
    List α :=
  ops.foldr (fun o acc => f o ++ acc) []

/-- The output tensors of an operation. -/
def outputsOf (o : Operation) : List Tensor :=
  (List.range o.numOutputs).map (fun i => ⟨o.id, i⟩)

/-- Modelled from the spec: `subgraph.SubGraphView(ops)` (external
subgraph-view construction) infers boundary inputs as the tensors
consumed by member operations but not produced by them, and boundary
outputs as the tensors produced by member operations. -/
def make_view_of_ops (ops : List Operation) : SubGraphView :=
  let ids := ops.map (fun o => o.id)
  { ops := ids,
    inputs :=
      (opsConcat ops (fun o => o.inputs)).dedup.filter
        (fun t => decide (t.op ∉ ids)),
    outputs := opsConcat ops outputsOf }

/-- `SubGraphView.input_index` / `output_index`: position of a boundary
tensor in the view's boundary list. -/
def SubGraphView.input_index (sgv : SubGraphView) (t : Tensor) : Nat :=
  sgv.inputs.indexOf t

/-- Position of a boundary output tensor in the view's output list. -/
def SubGraphView.output_index (sgv : SubGraphView) (t : Tensor) : Nat :=
  sgv.outputs.indexOf t

/-- Modelled from the spec: `SubGraphView.remap` restricted to what
`_transform_sgv` uses - keep the boundary tensors selected by the given
index lists, in the given order. -/
def SubGraphView.remapIO (sgv : SubGraphView) (im om : List Nat) :
    SubGraphView :=
  { sgv with
    inputs := im.filterMap (fun i => sgv.inputs[i]?),
    outputs := om.filterMap (fun i => sgv.outputs[i]?) }

/-- The operations of the transformed view: the values of the operation
translation table, resolved in the destination graph (its original
operations plus the ones created by this call). -/
def transformedViewOps (ctx : Ctx) (s : TState) : List Operation :=
  (s.transformedOps.map (fun p => p.2)).filterMap
    (fun i => (ctx.dstGraph.ops ++ s.newOps).find? (fun o => decide (o.id = i)))

/-- The transformed view before boundary remapping: the inferred view of
all translated member operations (`_transform_sgv`, lines 470-473). -/
def transformedViewBase (ctx : Ctx) (s : TState) : SubGraphView :=
  make_view_of_ops (transformedViewOps ctx s)

/-- Embeds `Transformer._transform_sgv` (lines 459-497): build the view
of all translated operations, then re-derive boundary inputs/outputs in
the order of the original view by locating each original boundary
tensor's translated counterpart in the new view (skipping untranslated
tensors and counterparts that are not boundary tensors of the new
view - the two `continue` statements). -/
def transform_sgv (ctx : Ctx) (s : TState) : SubGraphView :=
  let sgv_ := transformedViewBase ctx s
  let input_map_ :=
    ctx.sgv.inputs.filterMap (fun t =>
      match alookup s.transformedTs t with
      | none => none
      | some t_ =>
        if t_ ∈ sgv_.inputs then some (sgv_.input_index t_) else none)
  let output_map_ :=
    ctx.sgv.outputs.filterMap (fun t =>
      match alookup s.transformedTs t with
      | none => none
      | some t_ =>
        if t_ ∈ sgv_.outputs then some (sgv_.output_index t_) else none)
  sgv_.remapIO input_map_ output_map_

/-- The largest operation id of a graph (for fresh-id generation). -/
def maxOpId (ops : List Operation) : Nat :=
  ops.foldr (fun o acc => max o.id acc) 0

/-- The state at entry of a call: empty translation tables and logs, and
a fresh-id counter above every existing operation id. -/
def initState (ctx : Ctx) : TState :=
  ⟨[], [], [], [], [], [],
   max (maxOpId ctx.srcGraph.ops) (maxOpId ctx.dstGraph.ops) + 1⟩

/-- The members of the source subgraph that remain untranslated after
the forward pass and have no outputs (`remaining_roots`, lines
447-449; note the `not op.outputs` test selects operations whose output
list is empty). -/
def remainingRoots (ctx : Ctx) (s : TState) : List Nat :=
  (ctx.sgv.ops.filter (fun o => decide (alookup s.transformedOps o = none))).filter
    (fun o =>
      match ctx.srcGraph.getOp o with
      | some op => decide (op.numOutputs = 0)
      | none => false)

/-- The traversal body of `Transformer.__call__` (lines 441-453):
forward-from-outputs pass, root-completion pass, then reassembly of the
transformed subgraph view. -/
def transformerRun (ctx : Ctx) (fuel : Nat) :
    TState × Except TErr SubGraphView :=
  match transform_t_list ctx fuel (initState ctx) ctx.sgv.outputs with
  | (s, .error e) => (s, .error e)
  | (s, .ok _) =>
    match transform_op_list ctx fuel s (remainingRoots ctx s) with
    | (s, .error e) => (s, .error e)
    | (s, .ok _) => (s, .ok (transform_sgv ctx s))

/-- Embeds `Transformer.ResultInfo.__init__` (lines 245-257): the
snapshot of the per-call information packaged for the caller. -/
structure ResultInfo where
  graphId : Nat
  scope : String
  graphId_ : Nat
  scope_ : String
  transformedOps : List (Nat × Nat)
  transformedTs : List (Tensor × Tensor)
deriving DecidableEq, Repr

/-- A `Transformer` instance: the handler configuration and the
temporary per-call `_info` slot (line 397). -/
structure TransformerInst where
  info : Option (Ctx × TState)

/-- The argument normalization of `Transformer.__call__` (lines
427-439): finalize both scopes and, when not reusing, uniquify the
destination scope in the destination graph. -/
def mkCtx (srcGraph dstGraph : Graph) (sgv : SubGraphView)
    (dst_scope src_scope : String) (reuse_dst_scope : Bool)
    (extH : ExtHandler) : Ctx :=
  let src := scope_finalize src_scope
  let dst := scope_finalize dst_scope
  let dst :=
    if dst ≠ "" ∧ ¬reuse_dst_scope then
      scope_finalize
        (unique_name (dstGraph.ops.map (fun o => o.name)) ⟨dst.data.dropLast⟩)
    else dst
  ⟨srcGraph, dstGraph, sgv, src, dst, extH⟩

/-- Embeds `Transformer.__call__` (lines 399-457): build the per-call
context, run the traversal, and either package a `ResultInfo` and clear
the `_info` slot (normal return) or propagate the error, in which case
the `_info` slot keeps the partially filled per-call context (there is
no try/finally in the source). -/
def transformer_call (_inst : TransformerInst) (sgv : SubGraphView)
    (srcGraph dstGraph : Graph) (dst_scope src_scope : String)
    (reuse_dst_scope : Bool) (extH : ExtHandler) (fuel : Nat) :
    Except TErr (SubGraphView × ResultInfo) × TransformerInst :=
  let ctx := mkCtx srcGraph dstGraph sgv dst_scope src_scope reuse_dst_scope extH
  match transformerRun ctx fuel with
  | (s, .error e) => (.error e, ⟨some (ctx, s)⟩)
  | (s, .ok sgv_) =>
    (.ok (sgv_,
      ⟨ctx.srcGraph.gid, ctx.scope, ctx.dstGraph.gid, ctx.scope_,
       s.transformedOps, s.transformedTs⟩),
     ⟨none⟩)

/-- A result-mapping query: by reference (an operation or tensor) or by
name string. -/
inductive Query where
  | elemQ (e : GElem)
  | nameQ (s : String)
deriving DecidableEq, Repr

/-- Which translation table a query selects. -/
inductive WhichMap where
  | opsM
  | tsM
deriving DecidableEq, Repr

/-- Embeds `Transformer.ResultInfo._get_transformed_map` (lines
259-268): pick the container by the runtime type of the argument; any
argument that is neither an operation nor a tensor - in particular a
name string - raises `TypeError` (modelled as `.error ()`). -/
def get_transformed_map (q : Query) : Except Unit WhichMap :=
  match q with
  | .elemQ (.opE _) => .ok .opsM
  | .elemQ (.tsE _) => .ok .tsM
  | .nameQ _ => .error ()

/-- The selected translation table as a list of `GElem` pairs. -/
def mapPairs (ri : ResultInfo) : WhichMap → List (GElem × GElem)
  | .opsM => ri.transformedOps.map (fun p => (.opE p.1, .opE p.2))
  | .tsM => ri.transformedTs.map (fun p => (.tsE p.1, .tsE p.2))

/-- Embeds `Transformer.ResultInfo._transformed_elem` (lines 270-289):
fetch the table for the query (raising `TypeError` for a name string
before the name-scan branch of the source can run, since
`_get_transformed_map` accepts only operations and tensors), then look
the original up by reference, falling back to `missing_fn` (or `none`)
on a miss.  The name-scan branch of the source (lines 281-285) is
unreachable and therefore has no corresponding case here. -/
def transformed_elem (ri : ResultInfo) (q : Query)
    (missing_fn : Option (Query → Option GElem)) :
    Except Unit (Option GElem) :=
  match get_transformed_map q with
  | .error e => .error e
  | .ok m =>
    match q with
    | .nameQ _ => .ok none
    | .elemQ e =>
      match alookup (mapPairs ri m) e with
      | some r => .ok (some r)
      | none =>
        .ok (match missing_fn with
             | none => none
             | some fn => fn q)

/-- Embeds `Transformer.ResultInfo._original_elem` (lines 291-309):
fetch the table for the query (raising `TypeError` for a name string,
as above), then scan for the first entry whose transformed element
matches, falling back to `missing_fn` (or `none`) on a miss. -/
def original_elem (ri : ResultInfo) (q : Query)
    (missing_fn : Option (Query → Option GElem)) :
    Except Unit (Option GElem) :=
  match get_transformed_map q with
  | .error e => .error e
  | .ok m =>
    match (mapPairs ri m).find?
        (fun p =>
          match q with
          | .elemQ e => decide (p.2 = e)
          | .nameQ _ => false) with
    | some p => .ok (some p.1)
    | none =>
      .ok (match missing_fn with
           | none => none
           | some fn => fn q)

/-- The identity `missing_fn` of `graph_replace`
(`lambda original_t: original_t`, line 707). -/
def identity_missing_fn : Query → Option GElem
  | .elemQ e => some e
  | .nameQ _ => none

/-- An edge of the combined data-and-control graph: `b` consumes a data
output of `a`, or `a` is a control input of `b`. -/
def dependsEdge (g : Graph) (a b : Nat) : Bool :=
  match g.getOp b with
  | none => false
  | some ob =>
    ob.inputs.any (fun t => decide (t.op = a)) || decide (a ∈ ob.controlInputs)

/-- One expansion step of a forward reachability set. -/
def fwdStep (g : Graph) (cur : List Nat) : List Nat :=
  cur ++
    (g.ops.filter
      (fun o => decide (o.id ∉ cur) &&
        cur.any (fun a => dependsEdge g a o.id))).map (fun o => o.id)

/-- One expansion step of a backward reachability set. -/
def bwdStep (g : Graph) (cur : List Nat) : List Nat :=
  cur ++
    (g.ops.filter
      (fun o => decide (o.id ∉ cur) &&
        cur.any (fun b => dependsEdge g o.id b))).map (fun o => o.id)

/-- Iterate an expansion step to a fixpoint (graph-size many times). -/
def iterSteps (step : List Nat → List Nat) : Nat → List Nat → List Nat
  | 0, cur => cur
  | n + 1, cur => iterSteps step n (step cur)

/-- Modelled from the spec: `select.get_walks_intersection_ops` (the
external reachability oracle) returns the operations lying on some
data-or-control path from the replacement tensors to the targets: the
intersection of the forward walk from the consumers of the seed tensors
with the backward walk from the producers of the target tensors. -/
def get_walks_intersection_ops (g : Graph) (seeds targets : List Tensor) :
    List Nat :=
  let fwd :=
    iterSteps (fwdStep g) g.ops.length
      ((g.ops.filter (fun o => o.inputs.any (fun t => decide (t ∈ seeds)))).map
        (fun o => o.id))
  let bwd := iterSteps (bwdStep g) g.ops.length (targets.map (fun t => t.op))
  fwd.filter (fun o => decide (o ∈ bwd))

/-- Errors of `graph_replace`: the disconnected-rewrite error
(`ValueError("Targets and replacements are not connected!")`, the spec's
DisconnectedRewriteError), or an error propagated from the inner
transformer call. -/
inductive GRErr where
  | disconnected
  | inner (e : TErr)
deriving DecidableEq, Repr

/-- The outcome of `graph_replace`: the returned tensors (or error), the
operations created in the graph (the mutation record), and the
`ResultInfo` of the inner call when it completed (ghost, for stating
properties). -/
structure GraphReplaceRes where
  result : Except GRErr (List Tensor)
  createdOps : List Operation
  resInfo : Option ResultInfo
deriving DecidableEq, Repr

/-- Map one target tensor through the result mapping with the identity
fallback (`info.transformed(target_ts, missing_fn)`, lines 706-708;
`util.transform_tree` maps `_transformed_elem` over the flat target
list).  The final catch-all returns the original tensor; it is
unreachable because a tensor query never raises and its table holds only
tensors. -/
def mapTargetTensor (ri : ResultInfo) (t : Tensor) : Tensor :=
  match transformed_elem ri (.elemQ (.tsE t)) (some identity_missing_fn) with
  | .ok (some (.tsE t_)) => t_
  | _ => t

/-- Embeds `graph_replace` (lines 669-708) composed with
`copy_with_input_replacements` (lines 620-666): compute the operations
on some path from the replacement keys to the targets; if there are
none, fail with the disconnected-rewrite error before any mutation;
otherwise run the transformer over that operation set (destination graph
= source graph, external-input handler replaced by the substitution
handler) and map each target through the result mapping with the
identity fallback. -/
def graph_replace (g : Graph) (targets : List Tensor)
    (replacement_ts : List (Tensor × Tensor)) (dst_scope src_scope : String)
    (reuse_dst_scope : Bool) (fuel : Nat) : GraphReplaceRes :=
  let ops :=
    get_walks_intersection_ops g (replacement_ts.map (fun p => p.1)) targets
  if ops.isEmpty then ⟨.error .disconnected, [], none⟩
  else
    let sgv := make_view_of_ops (ops.filterMap g.getOp)
    let ctx := mkCtx g g sgv dst_scope src_scope reuse_dst_scope
      (.replaceOrH replacement_ts)
    match transformerRun ctx fuel with
    | (s, .error e) => ⟨.error (.inner e), s.newOps, none⟩
    | (s, .ok _sgv_) =>
      let ri : ResultInfo :=
        ⟨ctx.srcGraph.gid, ctx.scope, ctx.dstGraph.gid, ctx.scope_,
         s.transformedOps, s.transformedTs⟩
      ⟨.ok (targets.map (mapTargetTensor ri)), s.newOps, some ri⟩

/-- A diamond-shaped source graph used as a concrete instance: `a/c`
feeds `a/d` and `a/e`, which both feed `a/f`. -/
def diamondGraph : Graph :=
  ⟨0,
   [⟨0, "a/c", [], 1, [], none⟩,
    ⟨1, "a/d", [⟨0, 0⟩], 1, [], none⟩,
    ⟨2, "a/e", [⟨0, 0⟩], 1, [], none⟩,
    ⟨3, "a/f", [⟨1, 0⟩, ⟨2, 0⟩], 1, [], none⟩],
   []⟩

/-- An empty destination graph distinct from the source. -/
def emptyDstGraph : Graph := ⟨1, [], []⟩

/-- The whole-graph view of the diamond graph. -/
def diamondSgv : SubGraphView := ⟨[0, 1, 2, 3], [], [⟨3, 0⟩]⟩

/-- The call context for copying the diamond graph from scope `a/` to
scope `b/` in a fresh graph. -/
def diamondCtx : Ctx :=
  mkCtx diamondGraph emptyDstGraph diamondSgv "b/" "a/" true .placeholderH

/-- A ranking function for the diamond graph's dependency order. -/
def diamondRank : Nat → Nat
  | 0 => 0
  | 1 => 1
  | 2 => 1
  | _ => 2

/-- A graph whose only connection is a control edge: operation 1
produces the boundary output and has operation 0 (which has an output
tensor of its own, but no data consumers) as a control input. -/
def ctrlOnlyGraph : Graph :=
  ⟨0,
   [⟨0, "b", [], 1, [], none⟩,
    ⟨1, "x", [], 1, [0], none⟩],
   []⟩

/-- The whole-graph view of `ctrlOnlyGraph` with output `x:0`. -/
def ctrlOnlySgv : SubGraphView := ⟨[0, 1], [], [⟨1, 0⟩]⟩

/-- In-place call context on `ctrlOnlyGraph` with empty scopes. -/
def ctrlOnlyCtx : Ctx :=
  mkCtx ctrlOnlyGraph ctrlOnlyGraph ctrlOnlySgv "" "" true .placeholderH

/-- A one-operation graph whose operation has an output tensor. -/
def soloGraph : Graph := ⟨0, [⟨0, "x", [], 1, [], none⟩], []⟩

/-- A view of `soloGraph` whose declared boundary outputs are empty. -/
def soloSgvNoOutputs : SubGraphView := ⟨[0], [], []⟩

/-- In-place call context on `soloGraph` with no declared outputs. -/
def soloCtx : Ctx :=
  mkCtx soloGraph soloGraph soloSgvNoOutputs "" "" true .placeholderH

/-- A graph with one external producer `p` and one member consumer
`a/y`, used for the boundary-remap instance. -/
def boundaryGraph : Graph :=
  ⟨0,
   [⟨0, "p", [], 1, [], none⟩,
    ⟨1, "a/y", [⟨0, 0⟩], 1, [], none⟩],
   []⟩

/-- The view of `boundaryGraph` containing only `a/y`, with boundary
input `p:0` and boundary output `a/y:0`. -/
def boundarySgv : SubGraphView := ⟨[1], [⟨0, 0⟩], [⟨1, 0⟩]⟩

/-- Call context copying `boundarySgv` to scope `b/` of a fresh graph. -/
def boundaryCtx : Ctx :=
  mkCtx boundaryGraph emptyDstGraph boundarySgv "b/" "a/" true .placeholderH

/-- An operation named outside the source scope `a/`, so that its
translation raises the scope-mismatch error. -/
def mismatchGraph : Graph := ⟨0, [⟨0, "c/z", [], 1, [], none⟩], []⟩

/-- The whole-graph view of `mismatchGraph`. -/
def mismatchSgv : SubGraphView := ⟨[0], [], [⟨0, 0⟩]⟩

/-- The graph for the targeted-replacement instances: `s` feeds `m`;
`q` and `u` are isolated. -/
def replaceGraph : Graph :=
  ⟨0,
   [⟨0, "s", [], 1, [], none⟩,
    ⟨1, "m", [⟨0, 0⟩], 1, [], none⟩,
    ⟨2, "q", [], 1, [], none⟩,
    ⟨3, "u", [], 1, [], none⟩],
   []⟩

theorem alookup_ainsert_self {α β : Type} [DecidableEq α]
    (m : List (α × β)) (k : α) (v : β) :
    alookup (ainsert m k v) k = some v := by
  induction m with
  | nil => simp [ainsert, alookup]
  | cons p rest ih =>
    obtain ⟨k', v'⟩ := p
    by_cases h : k' = k
    · subst h
      simp [ainsert, alookup]
    · simp [ainsert, alookup, h, ih]

theorem alookup_ainsert_ne {α β : Type} [DecidableEq α]
    (m : List (α × β)) (k k' : α) (v : β) (h : k ≠ k') :
    alookup (ainsert m k v) k' = alookup m k' := by
  induction m with
  | nil => simp [ainsert, alookup, h]
  | cons p rest ih =>
    obtain ⟨k0, v0⟩ := p
    by_cases h0 : k0 = k
    · subst h0
      simp [ainsert, alookup, h]
    · simp [ainsert, alookup, h0, ih]

theorem alookup_ainsert_isSome {α β : Type} [DecidableEq α]
    (m : List (α × β)) (k k' : α) (v : β)
    (h : (alookup m k').isSome = true) :
    (alookup (ainsert m k v) k').isSome = true := by
  by_cases hk : k = k'
  · subst hk
    simp [alookup_ainsert_self]
  · rwa [alookup_ainsert_ne m k k' v hk]

/-- State evolution facts that hold across every traversal step: the
translation tables only gain entries and the ghost logs only grow by
appending. -/
def StepMono (s s' : TState) : Prop :=
  (∀ o, (alookup s.transformedOps o).isSome = true →
    (alookup s'.transformedOps o).isSome = true) ∧
  (∀ t, (alookup s.transformedTs t).isSome = true →
    (alookup s'.transformedTs t).isSome = true) ∧
  (∃ l, s'.opLog = s.opLog ++ l) ∧
  (∃ l, s'.tLog = s.tLog ++ l)

theorem StepMono.rfl (s : TState) : StepMono s s :=
  ⟨fun _ h => h, fun _ h => h, ⟨[], by simp⟩, ⟨[], by simp⟩⟩

theorem StepMono.comp {s1 s2 s3 : TState}
    (h1 : StepMono s1 s2) (h2 : StepMono s2 s3) : StepMono s1 s3 := by
  obtain ⟨a1, b1, ⟨l1, hl1⟩, ⟨m1, hm1⟩⟩ := h1
  obtain ⟨a2, b2, ⟨l2, hl2⟩, ⟨m2, hm2⟩⟩ := h2
  exact ⟨fun o h => a2 o (a1 o h), fun t h => b2 t (b1 t h),
    ⟨l1 ++ l2, by simp [hl2, hl1]⟩, ⟨m1 ++ m2, by simp [hm2, hm1]⟩⟩

theorem assign_renamed_collections_state (ctx : Ctx) :
    ∀ (cols : List (String × List GElem)) (s : TState) (e e_ : GElem)
      (s' : TState) (r : Except TErr Unit),
      assign_renamed_collections ctx s cols e e_ = (s', r) →
      s'.transformedOps = s.transformedOps ∧
      s'.transformedTs = s.transformedTs ∧
      s'.opLog = s.opLog ∧ s'.tLog = s.tLog ∧
      s'.newOps = s.newOps ∧ s'.nextId = s.nextId := by
  intro cols
  induction cols with
  | nil =>
    intro s e e_ s' r h
    simp only [assign_renamed_collections] at h
    obtain ⟨rfl, rfl⟩ := Prod.mk.inj h
    simp
  | cons p rest ih =>
    intro s e e_ s' r h
    obtain ⟨nm, es⟩ := p
    by_cases he : e ∈ es
    · simp only [assign_renamed_collections, if_pos he] at h
      cases hnn : new_name ctx.scope ctx.scope_ nm with
      | error er =>
        rw [hnn] at h
        obtain ⟨rfl, rfl⟩ := Prod.mk.inj h
        simp
      | ok nm_ =>
        rw [hnn] at h
        have h2 : assign_renamed_collections ctx
            { s with dstCollections := addToCollection s.dstCollections nm_ e_ }
            rest e e_ = (s', r) := h
        obtain ⟨a1, a2, a3, a4, a5, a6⟩ := ih _ e e_ s' r h2
        exact ⟨a1, a2, a3, a4, a5, a6⟩
    · simp only [assign_renamed_collections, if_neg he] at h
      exact ih s e e_ s' r h

theorem replace_t_with_placeholder_state (ctx : Ctx) (s : TState)
    (t : Tensor) :
    (replace_t_with_placeholder ctx s t).1.transformedOps = s.transformedOps ∧
    (replace_t_with_placeholder ctx s t).1.transformedTs = s.transformedTs ∧
    (replace_t_with_placeholder ctx s t).1.opLog = s.opLog ∧
    (replace_t_with_placeholder ctx s t).1.tLog = s.tLog := by
  simp [replace_t_with_placeholder]

theorem keep_t_if_possible_state (ctx : Ctx) (s : TState) (t : Tensor) :
    (keep_t_if_possible ctx s t).1.transformedOps = s.transformedOps ∧
    (keep_t_if_possible ctx s t).1.transformedTs = s.transformedTs ∧
    (keep_t_if_possible ctx s t).1.opLog = s.opLog ∧
    (keep_t_if_possible ctx s t).1.tLog = s.tLog := by
  rw [keep_t_if_possible]
  split
  · simp
  · exact replace_t_with_placeholder_state ctx s t

theorem applyExtHandler_state (ctx : Ctx) (s : TState) (t : Tensor) :
    (applyExtHandler ctx s t).1.transformedOps = s.transformedOps ∧
    (applyExtHandler ctx s t).1.transformedTs = s.transformedTs ∧
    (applyExtHandler ctx s t).1.opLog = s.opLog ∧
    (applyExtHandler ctx s t).1.tLog = s.tLog := by
  rw [applyExtHandler]
  split
  · exact replace_t_with_placeholder_state ctx s t
  · split
    · simp
    · exact keep_t_if_possible_state ctx s t

theorem finishT_state (ctx : Ctx) (s : TState) (t t_ : Tensor)
    (s' : TState) (r : Except TErr TVal)
    (h : finishT ctx s t t_ = (s', r)) :
    s'.transformedOps = s.transformedOps ∧
    s'.opLog = s.opLog ∧ s'.tLog = s.tLog ∧
    (∀ u, (alookup s.transformedTs u).isSome = true →
      (alookup s'.transformedTs u).isSome = true) ∧
    (∀ u, u ≠ t → alookup s'.transformedTs u = alookup s.transformedTs u) ∧
    (∀ v, r = .ok v → alookup s'.transformedTs t = some t_ ∧ v = .vT t_) := by
  by_cases hne : t = t_
  · rw [finishT, if_neg (by simp [hne])] at h
    obtain ⟨rfl, rfl⟩ := Prod.mk.inj h
    refine ⟨rfl, rfl, rfl, ?_, ?_, ?_⟩
    · intro u hu
      exact alookup_ainsert_isSome _ _ _ _ hu
    · intro u hu
      exact alookup_ainsert_ne _ _ _ _ (fun hc => hu hc.symm)
    · intro v hv
      cases hv
      exact ⟨alookup_ainsert_self _ _ _, rfl⟩
  · rw [finishT, if_pos hne] at h
    cases hasn : assign_renamed_collections ctx s ctx.srcGraph.collections
        (.tsE t) (.tsE t_) with
    | mk s1 r1 =>
      rw [hasn] at h
      obtain ⟨e1, e2, e3, e4, _, _⟩ :=
        assign_renamed_collections_state ctx _ s _ _ s1 r1 hasn
      cases r1 with
      | error er =>
        obtain ⟨rfl, rfl⟩ := Prod.mk.inj h
        refine ⟨e1, e3, e4, fun u hu => by rw [e2]; exact hu,
          fun u _ => by rw [e2], ?_⟩
        intro v hv
        exact absurd hv (by simp)
      | ok u =>
        obtain ⟨rfl, rfl⟩ := Prod.mk.inj h
        refine ⟨e1, e3, e4, ?_, ?_, ?_⟩
        · intro u hu
          simp only []
          rw [e2]
          exact alookup_ainsert_isSome _ _ _ _ hu
        · intro u hu
          simp only []
          rw [e2]
          exact alookup_ainsert_ne _ _ _ _ (fun hc => hu hc.symm)
        · intro v hv
          cases hv
          refine ⟨?_, rfl⟩
          simp only []
          rw [e2]
          exact alookup_ainsert_self _ _ _

theorem StepMono.of_fields {s s' : TState}
    (hOps : s'.transformedOps = s.transformedOps)
    (hTs : s'.transformedTs = s.transformedTs)
    (hOp : s'.opLog = s.opLog) (hT : s'.tLog = s.tLog) : StepMono s s' :=
  ⟨fun o h => by rw [hOps]; exact h, fun t h => by rw [hTs]; exact h,
   ⟨[], by simp [hOp]⟩, ⟨[], by simp [hT]⟩⟩

theorem finishT_mono (ctx : Ctx) (s : TState) (t t_ : Tensor)
    (s' : TState) (r : Except TErr TVal)
    (h : finishT ctx s t t_ = (s', r)) : StepMono s s' := by
  obtain ⟨e1, e2, e3, e4, _, _⟩ := finishT_state ctx s t t_ s' r h
  exact ⟨fun o h => by rw [e1]; exact h, e4, ⟨[], by simp [e2]⟩, ⟨[], by simp [e3]⟩⟩


theorem transform_mono (ctx : Ctx) :
    ∀ (f : Nat) (s : TState) (task : TTask) (s' : TState)
      (r : Except TErr TVal),
      transform ctx f s task = (s', r) → StepMono s s' := by
  intro f
  induction f with
  | zero =>
    intro s task s' r h
    simp only [transform] at h
    obtain ⟨rfl, rfl⟩ := Prod.mk.inj h
    exact StepMono.rfl s
  | succ f ih =>
    intro s task s' r h
    cases task with
    | tT t =>
      simp only [transform] at h
      cases halk : alookup s.transformedTs t with
      | some t_ =>
        rw [halk] at h
        simp only [] at h
        obtain ⟨rfl, rfl⟩ := Prod.mk.inj h
        exact StepMono.rfl s
      | none =>
        rw [halk] at h
        simp only [] at h
        have hm1 : StepMono s { s with tLog := s.tLog ++ [t] } :=
          ⟨fun o h => h, fun u h => h, ⟨[], by simp⟩, ⟨[t], by simp⟩⟩
        by_cases hmem : t.op ∈ ctx.sgv.ops
        · rw [if_pos hmem] at h
          cases hrec : transform ctx f { s with tLog := s.tLog ++ [t] } (.tOp t.op) with
          | mk s2 r2 =>
            rw [hrec] at h
            have hm2 := ih _ _ s2 r2 hrec
            cases r2 with
            | error e =>
              simp only [] at h
              obtain ⟨rfl, rfl⟩ := Prod.mk.inj h
              exact hm1.comp hm2
            | ok v =>
              cases v with
              | vOp o_ =>
                simp only [] at h
                exact (hm1.comp hm2).comp (finishT_mono ctx s2 t ⟨o_, t.idx⟩ s' r h)
              | vT u =>
                simp only [] at h
                obtain ⟨rfl, rfl⟩ := Prod.mk.inj h
                exact hm1.comp hm2
              | vOpt u =>
                simp only [] at h
                obtain ⟨rfl, rfl⟩ := Prod.mk.inj h
                exact hm1.comp hm2
              | vTs u =>
                simp only [] at h
                obtain ⟨rfl, rfl⟩ := Prod.mk.inj h
                exact hm1.comp hm2
              | vCtrls u =>
                simp only [] at h
                obtain ⟨rfl, rfl⟩ := Prod.mk.inj h
                exact hm1.comp hm2
        · rw [if_neg hmem] at h
          by_cases hin : t ∈ ctx.sgv.inputs
          · rw [if_pos hin] at h
            cases happ : applyExtHandler ctx { s with tLog := s.tLog ++ [t] } t with
            | mk s2 t_ =>
              rw [happ] at h
              simp only [] at h
              obtain ⟨e1, e2, e3, e4⟩ :=
                applyExtHandler_state ctx { s with tLog := s.tLog ++ [t] } t
              rw [happ] at e1 e2 e3 e4
              have hm2 : StepMono { s with tLog := s.tLog ++ [t] } s2 :=
                StepMono.of_fields e1 e2 e3 e4
              exact (hm1.comp hm2).comp (finishT_mono ctx s2 t t_ s' r h)
          · rw [if_neg hin] at h
            cases hkp : keep_t_if_possible ctx { s with tLog := s.tLog ++ [t] } t with
            | mk s2 t_ =>
              rw [hkp] at h
              simp only [] at h
              obtain ⟨e1, e2, e3, e4⟩ :=
                keep_t_if_possible_state ctx { s with tLog := s.tLog ++ [t] } t
              rw [hkp] at e1 e2 e3 e4
              have hm2 : StepMono { s with tLog := s.tLog ++ [t] } s2 :=
                StepMono.of_fields e1 e2 e3 e4
              exact (hm1.comp hm2).comp (finishT_mono ctx s2 t t_ s' r h)
    | tOp o =>
      simp only [transform] at h
      cases halk : alookup s.transformedOps o with
      | some o_ =>
        rw [halk] at h
        simp only [] at h
        obtain ⟨rfl, rfl⟩ := Prod.mk.inj h
        exact StepMono.rfl s
      | none =>
        rw [halk] at h
        simp only [] at h
        cases hrec : transform ctx f s (.tCopy o) with
        | mk s2 r2 =>
          rw [hrec] at h
          have hm2 := ih _ _ s2 r2 hrec
          cases r2 with
          | error e =>
            simp only [] at h
            obtain ⟨rfl, rfl⟩ := Prod.mk.inj h
            exact hm2
          | ok v =>
            cases v with
            | vOp o_ =>
              simp only [] at h
              by_cases hne : o = o_
              · rw [if_neg (by simp [hne])] at h
                simp only [] at h
                obtain ⟨rfl, rfl⟩ := Prod.mk.inj h
                refine hm2.comp ⟨?_, fun u hu => hu, ⟨[], by simp⟩, ⟨[], by simp⟩⟩
                intro u hu
                exact alookup_ainsert_isSome _ _ _ _ hu
              · rw [if_pos hne] at h
                cases hasn : assign_renamed_collections ctx s2 ctx.srcGraph.collections
                    (.opE o) (.opE o_) with
                | mk s3 r3 =>
                  rw [hasn] at h
                  simp only [] at h
                  obtain ⟨e1, e2, e3, e4, _, _⟩ :=
                    assign_renamed_collections_state ctx _ s2 _ _ s3 r3 hasn
                  have hm3 : StepMono s2 s3 := StepMono.of_fields e1 e2 e3 e4
                  cases r3 with
                  | error e =>
                    simp only [] at h
                    obtain ⟨rfl, rfl⟩ := Prod.mk.inj h
                    exact hm2.comp hm3
                  | ok u =>
                    simp only [] at h
                    obtain ⟨rfl, rfl⟩ := Prod.mk.inj h
                    refine (hm2.comp hm3).comp
                      ⟨?_, fun u hu => hu, ⟨[], by simp⟩, ⟨[], by simp⟩⟩
                    intro u hu
                    exact alookup_ainsert_isSome _ _ _ _ hu
            | vT u =>
              simp only [] at h
              obtain ⟨rfl, rfl⟩ := Prod.mk.inj h
              exact hm2
            | vOpt u =>
              simp only [] at h
              obtain ⟨rfl, rfl⟩ := Prod.mk.inj h
              exact hm2
            | vTs u =>
              simp only [] at h
              obtain ⟨rfl, rfl⟩ := Prod.mk.inj h
              exact hm2
            | vCtrls u =>
              simp only [] at h
              obtain ⟨rfl, rfl⟩ := Prod.mk.inj h
              exact hm2
    | tIf o? keep =>
      cases o? with
      | none =>
        simp only [transform] at h
        obtain ⟨rfl, rfl⟩ := Prod.mk.inj h
        exact StepMono.rfl s
      | some o =>
        simp only [transform] at h
        by_cases hmem : o ∈ ctx.sgv.ops
        · rw [if_pos hmem] at h
          cases hrec : transform ctx f s (.tOp o) with
          | mk s2 r2 =>
            rw [hrec] at h
            have hm2 := ih _ _ s2 r2 hrec
            cases r2 with
            | error e =>
              simp only [] at h
              obtain ⟨rfl, rfl⟩ := Prod.mk.inj h
              exact hm2
            | ok v =>
              cases v with
              | vOp o_ =>
                simp only [] at h
                obtain ⟨rfl, rfl⟩ := Prod.mk.inj h
                exact hm2
              | vT u =>
                simp only [] at h
                obtain ⟨rfl, rfl⟩ := Prod.mk.inj h
                exact hm2
              | vOpt u =>
                simp only [] at h
                obtain ⟨rfl, rfl⟩ := Prod.mk.inj h
                exact hm2
              | vTs u =>
                simp only [] at h
                obtain ⟨rfl, rfl⟩ := Prod.mk.inj h
                exact hm2
              | vCtrls u =>
                simp only [] at h
                obtain ⟨rfl, rfl⟩ := Prod.mk.inj h
                exact hm2
        · rw [if_neg hmem] at h
          split at h
          · obtain ⟨rfl, rfl⟩ := Prod.mk.inj h
            exact StepMono.rfl s
          · obtain ⟨rfl, rfl⟩ := Prod.mk.inj h
            exact StepMono.rfl s
    | tCopy o =>
      simp only [transform] at h
      cases hop : ctx.srcGraph.getOp o with
      | none =>
        rw [hop] at h
        simp only [] at h
        obtain ⟨rfl, rfl⟩ := Prod.mk.inj h
        exact StepMono.rfl s
      | some op =>
        rw [hop] at h
        simp only [] at h
        have hm1 : StepMono s { s with opLog := s.opLog ++ [o] } :=
          ⟨fun u hu => hu, fun u hu => hu, ⟨[o], by simp⟩, ⟨[], by simp⟩⟩
        cases hc : transform ctx f { s with opLog := s.opLog ++ [o] }
            (.tCtrls op.controlInputs) with
        | mk s2 r2 =>
          rw [hc] at h
          have hm2 := ih _ _ s2 r2 hc
          cases r2 with
          | error e =>
            simp only [] at h
            obtain ⟨rfl, rfl⟩ := Prod.mk.inj h
            exact hm1.comp hm2
          | ok v =>
            cases v with
            | vCtrls cis =>
              simp only [] at h
              cases hi : transform ctx f s2 (.tIf op.originalOp true) with
              | mk s3 r3 =>
                rw [hi] at h
                have hm3 := ih _ _ s3 r3 hi
                cases r3 with
                | error e =>
                  simp only [] at h
                  obtain ⟨rfl, rfl⟩ := Prod.mk.inj h
                  exact (hm1.comp hm2).comp hm3
                | ok v3 =>
                  cases v3 with
                  | vOpt orig_ =>
                    simp only [] at h
                    cases ht : transform ctx f s3 (.tTs op.inputs) with
                    | mk s4 r4 =>
                      rw [ht] at h
                      have hm4 := ih _ _ s4 r4 ht
                      cases r4 with
                      | error e =>
                        simp only [] at h
                        obtain ⟨rfl, rfl⟩ := Prod.mk.inj h
                        exact ((hm1.comp hm2).comp hm3).comp hm4
                      | ok v4 =>
                        cases v4 with
                        | vTs ins_ =>
                          simp only [] at h
                          cases hnn : new_name ctx.scope ctx.scope_ op.name with
                          | error e =>
                            rw [hnn] at h
                            simp only [] at h
                            obtain ⟨rfl, rfl⟩ := Prod.mk.inj h
                            exact ((hm1.comp hm2).comp hm3).comp hm4
                          | ok nm0 =>
                            rw [hnn] at h
                            simp only [] at h
                            obtain ⟨rfl, rfl⟩ := Prod.mk.inj h
                            exact (((hm1.comp hm2).comp hm3).comp hm4).comp
                              ⟨fun u hu => hu, fun u hu => hu,
                               ⟨[], by simp⟩, ⟨[], by simp⟩⟩
                        | vT u =>
                          simp only [] at h
                          obtain ⟨rfl, rfl⟩ := Prod.mk.inj h
                          exact ((hm1.comp hm2).comp hm3).comp hm4
                        | vOp u =>
                          simp only [] at h
                          obtain ⟨rfl, rfl⟩ := Prod.mk.inj h
                          exact ((hm1.comp hm2).comp hm3).comp hm4
                        | vOpt u =>
                          simp only [] at h
                          obtain ⟨rfl, rfl⟩ := Prod.mk.inj h
                          exact ((hm1.comp hm2).comp hm3).comp hm4
                        | vCtrls u =>
                          simp only [] at h
                          obtain ⟨rfl, rfl⟩ := Prod.mk.inj h
                          exact ((hm1.comp hm2).comp hm3).comp hm4
                  | vT u =>
                    simp only [] at h
                    obtain ⟨rfl, rfl⟩ := Prod.mk.inj h
                    exact (hm1.comp hm2).comp hm3
                  | vOp u =>
                    simp only [] at h
                    obtain ⟨rfl, rfl⟩ := Prod.mk.inj h
                    exact (hm1.comp hm2).comp hm3
                  | vTs u =>
                    simp only [] at h
                    obtain ⟨rfl, rfl⟩ := Prod.mk.inj h
                    exact (hm1.comp hm2).comp hm3
                  | vCtrls u =>
                    simp only [] at h
                    obtain ⟨rfl, rfl⟩ := Prod.mk.inj h
                    exact (hm1.comp hm2).comp hm3
            | vT u =>
              simp only [] at h
              obtain ⟨rfl, rfl⟩ := Prod.mk.inj h
              exact hm1.comp hm2
            | vOp u =>
              simp only [] at h
              obtain ⟨rfl, rfl⟩ := Prod.mk.inj h
              exact hm1.comp hm2
            | vOpt u =>
              simp only [] at h
              obtain ⟨rfl, rfl⟩ := Prod.mk.inj h
              exact hm1.comp hm2
            | vTs u =>
              simp only [] at h
              obtain ⟨rfl, rfl⟩ := Prod.mk.inj h
              exact hm1.comp hm2
    | tTs ts =>
      cases ts with
      | nil =>
        simp only [transform] at h
        obtain ⟨rfl, rfl⟩ := Prod.mk.inj h
        exact StepMono.rfl s
      | cons t rest =>
        simp only [transform] at h
        cases h1 : transform ctx f s (.tT t) with
        | mk s2 r2 =>
          rw [h1] at h
          have hm2 := ih _ _ s2 r2 h1
          cases r2 with
          | error e =>
            simp only [] at h
            obtain ⟨rfl, rfl⟩ := Prod.mk.inj h
            exact hm2
          | ok v =>
            cases v with
            | vT t_ =>
              simp only [] at h
              cases h2 : transform ctx f s2 (.tTs rest) with
              | mk s3 r3 =>
                rw [h2] at h
                have hm3 := ih _ _ s3 r3 h2
                cases r3 with
                | error e =>
                  simp only [] at h
                  obtain ⟨rfl, rfl⟩ := Prod.mk.inj h
                  exact hm2.comp hm3
                | ok v3 =>
                  cases v3 with
                  | vTs rest_ =>
                    simp only [] at h
                    obtain ⟨rfl, rfl⟩ := Prod.mk.inj h
                    exact hm2.comp hm3
                  | vT u =>
                    simp only [] at h
                    obtain ⟨rfl, rfl⟩ := Prod.mk.inj h
                    exact hm2.comp hm3
                  | vOp u =>
                    simp only [] at h
                    obtain ⟨rfl, rfl⟩ := Prod.mk.inj h
                    exact hm2.comp hm3
                  | vOpt u =>
                    simp only [] at h
                    obtain ⟨rfl, rfl⟩ := Prod.mk.inj h
                    exact hm2.comp hm3
                  | vCtrls u =>
                    simp only [] at h
                    obtain ⟨rfl, rfl⟩ := Prod.mk.inj h
                    exact hm2.comp hm3
            | vOp u =>
              simp only [] at h
              obtain ⟨rfl, rfl⟩ := Prod.mk.inj h
              exact hm2
            | vOpt u =>
              simp only [] at h
              obtain ⟨rfl, rfl⟩ := Prod.mk.inj h
              exact hm2
            | vTs u =>
              simp only [] at h
              obtain ⟨rfl, rfl⟩ := Prod.mk.inj h
              exact hm2
            | vCtrls u =>
              simp only [] at h
              obtain ⟨rfl, rfl⟩ := Prod.mk.inj h
              exact hm2
    | tCtrls cs =>
      cases cs with
      | nil =>
        simp only [transform] at h
        obtain ⟨rfl, rfl⟩ := Prod.mk.inj h
        exact StepMono.rfl s
      | cons c rest =>
        simp only [transform] at h
        cases h1 : transform ctx f s (.tIf (some c) true) with
        | mk s2 r2 =>
          rw [h1] at h
          have hm2 := ih _ _ s2 r2 h1
          cases r2 with
          | error e =>
            simp only [] at h
            obtain ⟨rfl, rfl⟩ := Prod.mk.inj h
            exact hm2
          | ok v =>
            cases v with
            | vOpt c_ =>
              simp only [] at h
              cases h2 : transform ctx f s2 (.tCtrls rest) with
              | mk s3 r3 =>
                rw [h2] at h
                have hm3 := ih _ _ s3 r3 h2
                cases r3 with
                | error e =>
                  simp only [] at h
                  obtain ⟨rfl, rfl⟩ := Prod.mk.inj h
                  exact hm2.comp hm3
                | ok v3 =>
                  cases v3 with
                  | vCtrls rest_ =>
                    simp only [] at h
                    obtain ⟨rfl, rfl⟩ := Prod.mk.inj h
                    exact hm2.comp hm3
                  | vT u =>
                    simp only [] at h
                    obtain ⟨rfl, rfl⟩ := Prod.mk.inj h
                    exact hm2.comp hm3
                  | vOp u =>
                    simp only [] at h
                    obtain ⟨rfl, rfl⟩ := Prod.mk.inj h
                    exact hm2.comp hm3
                  | vOpt u =>
                    simp only [] at h
                    obtain ⟨rfl, rfl⟩ := Prod.mk.inj h
                    exact hm2.comp hm3
                  | vTs u =>
                    simp only [] at h
                    obtain ⟨rfl, rfl⟩ := Prod.mk.inj h
                    exact hm2.comp hm3
            | vT u =>
              simp only [] at h
              obtain ⟨rfl, rfl⟩ := Prod.mk.inj h
              exact hm2
            | vOp u =>
              simp only [] at h
              obtain ⟨rfl, rfl⟩ := Prod.mk.inj h
              exact hm2
            | vTs u =>
              simp only [] at h
              obtain ⟨rfl, rfl⟩ := Prod.mk.inj h
              exact hm2
            | vCtrls u =>
              simp only [] at h
              obtain ⟨rfl, rfl⟩ := Prod.mk.inj h
              exact hm2

theorem transform_tOp_lookup (ctx : Ctx) (f : Nat) (s : TState) (o : Nat)
    (s' : TState) (v : TVal)
    (h : transform ctx f s (.tOp o) = (s', .ok v)) :
    ∃ o_, v = .vOp o_ ∧ alookup s'.transformedOps o = some o_ := by
  cases f with
  | zero =>
    simp only [transform] at h
    obtain ⟨rfl, hr⟩ := Prod.mk.inj h
    exact absurd hr (by simp)
  | succ f =>
    simp only [transform] at h
    cases halk : alookup s.transformedOps o with
    | some o_ =>
      rw [halk] at h
      simp only [] at h
      obtain ⟨rfl, hr⟩ := Prod.mk.inj h
      refine ⟨o_, ?_, halk⟩
      simpa using hr.symm
    | none =>
      rw [halk] at h
      simp only [] at h
      cases hrec : transform ctx f s (.tCopy o) with
      | mk s2 r2 =>
        rw [hrec] at h
        cases r2 with
        | error e =>
          simp only [] at h
          obtain ⟨rfl, hr⟩ := Prod.mk.inj h
          exact absurd hr (by simp)
        | ok v2 =>
          cases v2 with
          | vOp o_ =>
            simp only [] at h
            by_cases hne : o = o_
            · rw [if_neg (by simp [hne])] at h
              simp only [] at h
              obtain ⟨rfl, hr⟩ := Prod.mk.inj h
              refine ⟨o_, by simpa using hr.symm, ?_⟩
              simp only []
              exact alookup_ainsert_self _ _ _
            · rw [if_pos hne] at h
              cases hasn : assign_renamed_collections ctx s2 ctx.srcGraph.collections
                  (.opE o) (.opE o_) with
              | mk s3 r3 =>
                rw [hasn] at h
                simp only [] at h
                cases r3 with
                | error e =>
                  simp only [] at h
                  obtain ⟨rfl, hr⟩ := Prod.mk.inj h
                  exact absurd hr (by simp)
                | ok u =>
                  simp only [] at h
                  obtain ⟨rfl, hr⟩ := Prod.mk.inj h
                  refine ⟨o_, by simpa using hr.symm, ?_⟩
                  simp only []
                  exact alookup_ainsert_self _ _ _
          | vT u =>
            simp only [] at h
            obtain ⟨rfl, hr⟩ := Prod.mk.inj h
            exact absurd hr (by simp)
          | vOpt u =>
            simp only [] at h
            obtain ⟨rfl, hr⟩ := Prod.mk.inj h
            exact absurd hr (by simp)
          | vTs u =>
            simp only [] at h
            obtain ⟨rfl, hr⟩ := Prod.mk.inj h
            exact absurd hr (by simp)
          | vCtrls u =>
            simp only [] at h
            obtain ⟨rfl, hr⟩ := Prod.mk.inj h
            exact absurd hr (by simp)

theorem transform_op_list_mono (ctx : Ctx) (fuel : Nat) :
    ∀ (l : List Nat) (s s' : TState) (r : Except TErr Unit),
      transform_op_list ctx fuel s l = (s', r) → StepMono s s' := by
  intro l
  induction l with
  | nil =>
    intro s s' r h
    simp only [transform_op_list] at h
    obtain ⟨rfl, rfl⟩ := Prod.mk.inj h
    exact StepMono.rfl s
  | cons o rest ih =>
    intro s s' r h
    simp only [transform_op_list] at h
    cases h1 : transform ctx fuel s (.tOp o) with
    | mk s2 r2 =>
      rw [h1] at h
      have hm2 := transform_mono ctx fuel s (.tOp o) s2 r2 h1
      cases r2 with
      | error e =>
        simp only [] at h
        obtain ⟨rfl, rfl⟩ := Prod.mk.inj h
        exact hm2
      | ok v =>
        simp only [] at h
        exact hm2.comp (ih s2 s' r h)

theorem transform_t_list_mono (ctx : Ctx) (fuel : Nat) :
    ∀ (l : List Tensor) (s s' : TState) (r : Except TErr Unit),
      transform_t_list ctx fuel s l = (s', r) → StepMono s s' := by
  intro l
  induction l with
  | nil =>
    intro s s' r h
    simp only [transform_t_list] at h
    obtain ⟨rfl, rfl⟩ := Prod.mk.inj h
    exact StepMono.rfl s
  | cons t rest ih =>
    intro s s' r h
    simp only [transform_t_list] at h
    cases h1 : transform ctx fuel s (.tT t) with
    | mk s2 r2 =>
      rw [h1] at h
      have hm2 := transform_mono ctx fuel s (.tT t) s2 r2 h1
      cases r2 with
      | error e =>
        simp only [] at h
        obtain ⟨rfl, rfl⟩ := Prod.mk.inj h
        exact hm2
      | ok v =>
        simp only [] at h
        exact hm2.comp (ih s2 s' r h)

theorem transform_op_list_covers (ctx : Ctx) (fuel : Nat) :
    ∀ (l : List Nat) (s s' : TState) (u : Unit),
      transform_op_list ctx fuel s l = (s', .ok u) →
      ∀ o ∈ l, (alookup s'.transformedOps o).isSome = true := by
  intro l
  induction l with
  | nil =>
    intro s s' u h o ho
    exact absurd ho (by simp)
  | cons o0 rest ih =>
    intro s s' u h o ho
    simp only [transform_op_list] at h
    cases h1 : transform ctx fuel s (.tOp o0) with
    | mk s2 r2 =>
      rw [h1] at h
      cases r2 with
      | error e =>
        simp only [] at h
        obtain ⟨rfl, hr⟩ := Prod.mk.inj h
        exact absurd hr (by simp)
      | ok v =>
        simp only [] at h
        rcases List.mem_cons.mp ho with rfl | hmem
        · obtain ⟨o_, _, hlk⟩ := transform_tOp_lookup ctx fuel s o s2 v h1
          have := (transform_op_list_mono ctx fuel rest s2 s' (.ok u) h).1 o
          exact this (by simp [hlk])
        · exact ih s2 s' u h o hmem

/-- C4 counterexample: a successful call on a view with a member
operation that has outputs but is unreachable from the declared boundary
outputs leaves that operation untranslated, so the operation translation
table does not contain an entry for every member operation.  Operation 1
of `rootGraph` has one output, the declared boundary outputs are empty,
and after a successful call it has no entry (operation 0, which has no
outputs, is picked up by the root-completion pass instead). -/
def rootGraph : Graph :=
  ⟨0, [⟨0, "r", [], 0, [], none⟩, ⟨1, "w", [], 1, [], none⟩], []⟩

/-- The whole-operation view of `rootGraph` with no declared outputs. -/
def rootSgv : SubGraphView := ⟨[0, 1], [], []⟩

/-- In-place call context on `rootGraph`. -/
def rootCtx : Ctx := mkCtx rootGraph rootGraph rootSgv "" "" true .placeholderH

/-- C4 is false as stated: this successful call leaves member operation
1 (which has an output tensor, unreachable from the empty declared
boundary outputs) without an entry in the operation translation table;
the root-completion pass only picks up operations whose output list is
empty (`not op.outputs`), such as operation 0. -/
theorem c4_counterexample :
    (transformerRun rootCtx 20).2.isOk = true ∧
    (1 ∈ rootCtx.sgv.ops ∧
      alookup (transformerRun rootCtx 20).1.transformedOps 1 = none) ∧
    (alookup (transformerRun rootCtx 20).1.transformedOps 0).isSome = true := by
  decide

/-- C4 (amended): for every successful Transformer call, every member
operation whose output list is empty ends up translated: such an
operation is either reached by the forward-from-outputs pass or picked
up by the root-completion pass, so the operation translation table
contains an entry for it.  (Member operations with a nonempty output
list that are unreachable from the declared boundary outputs may remain
untranslated, as the counterexample shows.) -/
theorem c4_root_completion_no_output_ops :
    ∀ (ctx : Ctx) (fuel : Nat) (s : TState) (sgvF : SubGraphView),
      transformerRun ctx fuel = (s, .ok sgvF) →
      ∀ o ∈ ctx.sgv.ops, ∀ op, ctx.srcGraph.getOp o = some op →
        op.numOutputs = 0 →
        (alookup s.transformedOps o).isSome = true := by
  intro ctx fuel s sgvF h o ho op hop hout
  simp only [transformerRun] at h
  cases hfwd : transform_t_list ctx fuel (initState ctx) ctx.sgv.outputs with
  | mk s1 r1 =>
    rw [hfwd] at h
    cases r1 with
    | error e =>
      simp only [] at h
      obtain ⟨rfl, hr⟩ := Prod.mk.inj h
      exact absurd hr (by simp)
    | ok u1 =>
      simp only [] at h
      cases hroots : transform_op_list ctx fuel s1 (remainingRoots ctx s1) with
      | mk s2 r2 =>
        rw [hroots] at h
        cases r2 with
        | error e =>
          simp only [] at h
          obtain ⟨rfl, hr⟩ := Prod.mk.inj h
          exact absurd hr (by simp)
        | ok u2 =>
          simp only [] at h
          obtain ⟨heq, _⟩ := Prod.mk.inj h
          rw [← heq]
          by_cases h1 : (alookup s1.transformedOps o).isSome = true
          · exact (transform_op_list_mono ctx fuel _ s1 s2 (.ok u2) hroots).1 o h1
          · have hnone : alookup s1.transformedOps o = none := by
              cases halk : alookup s1.transformedOps o with
              | none => rfl
              | some x => rw [halk] at h1; simp at h1
            have hmem : o ∈ remainingRoots ctx s1 := by
              simp only [remainingRoots, List.mem_filter]
              refine ⟨⟨ho, by simp [hnone]⟩, ?_⟩
              rw [hop]
              simp [hout]
            exact transform_op_list_covers ctx fuel _ s1 s2 u2 hroots o hmem

/-- Witness for the amended C4: in the concrete `rootCtx` call,
operation 0 (no outputs) is translated. -/
theorem c4_root_completion_no_output_ops_witness :
    (alookup (transformerRun rootCtx 20).1.transformedOps 0).isSome = true := by
  rcases hrun : transformerRun rootCtx 20 with ⟨s, r⟩
  cases r with
  | error e =>
    have hok : (transformerRun rootCtx 20).2.isOk = true := by decide
    rw [hrun] at hok
    simp [Except.isOk, Except.toBool] at hok
  | ok sgvF =>
    have := c4_root_completion_no_output_ops rootCtx 20 s sgvF hrun 0
      (by decide) ⟨0, "r", [], 0, [], none⟩ (by decide) rfl
    simpa using this

/-- C8 (code bug): a Result-mapping lookup keyed by a name string raises
`TypeError` from `_get_transformed_map` before the linear name scan of
`_transformed_elem` / `_original_elem` can run: those string-handling
branches are dead code.  This theorem evaluates both lookups at a
concrete failing input - a populated result mapping queried with the
name string of one of its own entries, with no fallback - and shows they
raise instead of scanning or returning the default fallback. -/
theorem c8_name_lookup_raises_type_error :
    transformed_elem ⟨0, "", 1, "", [(0, 2)], [(⟨0, 0⟩, ⟨2, 0⟩)]⟩
      (.nameQ "a/x") none = .error () ∧
    original_elem ⟨0, "", 1, "", [(0, 2)], [(⟨0, 0⟩, ⟨2, 0⟩)]⟩
      (.nameQ "a/x") none = .error () := by
  constructor <;> rfl

/-- C9: the default original-operation-link handler
(`transform_op_if_inside_handler` with `keep_if_possible = True`)
returns `none` for a missing backlink; translates the backlink (to its
operation-table entry) exactly when the referenced operation is a member
of the subgraph view; and otherwise keeps it unchanged when source and
destination graphs are the same and drops it (returns `none`) when they
differ. -/
theorem c9_original_op_handler :
    ∀ (ctx : Ctx) (f : Nat) (s : TState),
      transform ctx (f + 1) s (.tIf none true) = (s, .ok (.vOpt none)) ∧
      (∀ o, o ∉ ctx.sgv.ops →
        (ctx.srcGraph.gid = ctx.dstGraph.gid →
          transform ctx (f + 1) s (.tIf (some o) true) = (s, .ok (.vOpt (some o)))) ∧
        (ctx.srcGraph.gid ≠ ctx.dstGraph.gid →
          transform ctx (f + 1) s (.tIf (some o) true) = (s, .ok (.vOpt none)))) ∧
      (∀ o, o ∈ ctx.sgv.ops → ∀ s' o_,
        transform ctx f s (.tOp o) = (s', .ok (.vOp o_)) →
        transform ctx (f + 1) s (.tIf (some o) true) = (s', .ok (.vOpt (some o_))) ∧
        alookup s'.transformedOps o = some o_) := by
  intro ctx f s
  refine ⟨rfl, ?_, ?_⟩
  · intro o hmem
    constructor
    · intro hg
      simp only [transform]
      rw [if_neg hmem, if_pos ⟨trivial, hg⟩]
    · intro hg
      simp only [transform]
      rw [if_neg hmem, if_neg (by simp [hg])]
  · intro o hmem s' o_ hop
    constructor
    · simp only [transform]
      rw [if_pos hmem, hop]
    · obtain ⟨o2, hv, hlk⟩ := transform_tOp_lookup ctx f s o s' (.vOp o_) hop
      cases hv
      exact hlk

/-- Witness for C9: the three conditional clauses applied at concrete
inputs - a missing backlink, a non-member backlink in an in-place call
(kept), a non-member backlink in a cross-graph call (dropped), and a
member backlink (translated to its table entry). -/
theorem c9_original_op_handler_witness :
    transform ctrlOnlyCtx 10 (initState ctrlOnlyCtx) (.tIf none true)
      = (initState ctrlOnlyCtx, .ok (.vOpt none)) ∧
    transform ctrlOnlyCtx 10 (initState ctrlOnlyCtx) (.tIf (some 7) true)
      = (initState ctrlOnlyCtx, .ok (.vOpt (some 7))) ∧
    transform diamondCtx 10 (initState diamondCtx) (.tIf (some 7) true)
      = (initState diamondCtx, .ok (.vOpt none)) ∧
    ((transform ctrlOnlyCtx 9 (initState ctrlOnlyCtx) (.tOp 0)).2
        = .ok (.vOp 2) →
      transform ctrlOnlyCtx 10 (initState ctrlOnlyCtx) (.tIf (some 0) true)
        = ((transform ctrlOnlyCtx 9 (initState ctrlOnlyCtx) (.tOp 0)).1,
           .ok (.vOpt (some 2)))) := by
  refine ⟨(c9_original_op_handler ctrlOnlyCtx 9 (initState ctrlOnlyCtx)).1,
    ((c9_original_op_handler ctrlOnlyCtx 9 (initState ctrlOnlyCtx)).2.1 7
      (by decide)).1 (by decide),
    ((c9_original_op_handler diamondCtx 9 (initState diamondCtx)).2.1 7
      (by decide)).2 (by decide),
    ?_⟩
  intro hok
  exact ((c9_original_op_handler ctrlOnlyCtx 9 (initState ctrlOnlyCtx)).2.2 0
    (by decide) _ 2
    (by
      rcases hr : transform ctrlOnlyCtx 9 (initState ctrlOnlyCtx) (.tOp 0) with ⟨sx, rx⟩
      rw [hr] at hok
      simp only [] at hok
      rw [hok])).1

/-- C10 counterexample: a call that terminates by raising (the member
operation is named outside the source scope, so `new_name` raises
mid-traversal) leaves the per-call context set on the transformer
instance: there is no try/finally around the traversal, so the line
clearing `self._info` never runs on the error path. -/
theorem c10_counterexample :
    (transformer_call ⟨none⟩ mismatchSgv mismatchGraph emptyDstGraph
      "b/" "a/" true .placeholderH 20).1.isOk = false ∧
    (transformer_call ⟨none⟩ mismatchSgv mismatchGraph emptyDstGraph
      "b/" "a/" true .placeholderH 20).2.info.isSome = true := by
  constructor <;> rfl

/-- C10 (amended): the per-call transform context is created fresh at
call entry - the result of a call is entirely independent of whatever
per-call context the instance held beforehand - and it is discarded at
call exit on every normal return; but a call that terminates by raising
leaves the (partially filled) context on the instance until the next
call overwrites it, as the counterexample shows. -/
theorem c10_context_lifecycle :
    ∀ (i : Option (Ctx × TState)) (sgv : SubGraphView)
      (srcGraph dstGraph : Graph) (ds ss : String) (ru : Bool)
      (extH : ExtHandler) (fuel : Nat),
      transformer_call ⟨i⟩ sgv srcGraph dstGraph ds ss ru extH fuel
        = transformer_call ⟨none⟩ sgv srcGraph dstGraph ds ss ru extH fuel ∧
      (∀ res inst',
        transformer_call ⟨i⟩ sgv srcGraph dstGraph ds ss ru extH fuel
          = (.ok res, inst') → inst'.info = none) := by
  intro i sgv srcGraph dstGraph ds ss ru extH fuel
  refine ⟨rfl, ?_⟩
  intro res inst' h
  simp only [transformer_call] at h
  cases hrun : transformerRun
      (mkCtx srcGraph dstGraph sgv ds ss ru extH) fuel with
  | mk s r =>
    rw [hrun] at h
    cases r with
    | error e =>
      simp only [] at h
      obtain ⟨hr, _⟩ := Prod.mk.inj h
      exact absurd hr (by simp)
    | ok sgv_ =>
      simp only [] at h
      obtain ⟨_, hinst⟩ := Prod.mk.inj h
      rw [← hinst]

/-- Witness for the amended C10: a successful concrete call started on
an instance whose context slot is still occupied behaves as if the slot
were empty, and ends with the slot cleared. -/
theorem c10_context_lifecycle_witness :
    (transformer_call ⟨some (soloCtx, initState soloCtx)⟩ diamondSgv
        diamondGraph emptyDstGraph "b/" "a/" true .placeholderH 30
      = transformer_call ⟨none⟩ diamondSgv diamondGraph emptyDstGraph
        "b/" "a/" true .placeholderH 30) ∧
    (transformer_call ⟨some (soloCtx, initState soloCtx)⟩ diamondSgv
        diamondGraph emptyDstGraph "b/" "a/" true .placeholderH 30).2.info
      = none := by
  have hc := c10_context_lifecycle (some (soloCtx, initState soloCtx))
    diamondSgv diamondGraph emptyDstGraph "b/" "a/" true .placeholderH 30
  refine ⟨hc.1, ?_⟩
  rcases hres : transformer_call ⟨some (soloCtx, initState soloCtx)⟩ diamondSgv
      diamondGraph emptyDstGraph "b/" "a/" true .placeholderH 30 with ⟨r, inst'⟩
  cases r with
  | error e =>
    have hok : (transformer_call ⟨some (soloCtx, initState soloCtx)⟩ diamondSgv
        diamondGraph emptyDstGraph "b/" "a/" true .placeholderH 30).1.isOk
        = true := by
      rw [hc.1]
      decide
    rw [hres] at hok
    simp [Except.isOk, Except.toBool] at hok
  | ok res =>
    simpa using hc.2 res inst' hres

theorem alookup_mapPairs_ts (l : List (Tensor × Tensor)) (t : Tensor) :
    alookup (l.map (fun p => ((.tsE p.1 : GElem), (.tsE p.2 : GElem)))) (.tsE t)
      = (alookup l t).map (fun x => (.tsE x : GElem)) := by
  induction l with
  | nil => simp [alookup]
  | cons p rest ih =>
    obtain ⟨a, b⟩ := p
    by_cases hat : a = t
    · subst hat
      simp [alookup]
    · simp only [List.map_cons, alookup, if_neg hat,
        if_neg (fun hc => hat (GElem.tsE.inj hc))]
      exact ih

theorem mapTargetTensor_eq (ri : ResultInfo) (t : Tensor) :
    mapTargetTensor ri t =
      match alookup ri.transformedTs t with
      | none => t
      | some t_ => t_ := by
  simp only [mapTargetTensor, transformed_elem, get_transformed_map, mapPairs]
  rw [alookup_mapPairs_ts]
  cases alookup ri.transformedTs t with
  | none => rfl
  | some t_ => rfl

/-- C6: for every targeted-replacement call, if the set of operations on
some data-or-control path from the replacement keys to the targets is
empty, the call fails with the disconnected-rewrite error before any
mutation of any graph (no operation is created and no result mapping
exists); if the set is non-empty, no disconnected-rewrite error is
raised and the transformer is invoked on exactly that operation set (the
call's mutation record is that invocation's). -/
theorem c6_disconnected_rewrite :
    ∀ (g : Graph) (targets : List Tensor) (R : List (Tensor × Tensor))
      (ds ss : String) (ru : Bool) (fuel : Nat),
      (get_walks_intersection_ops g (R.map (fun p => p.1)) targets = [] →
        graph_replace g targets R ds ss ru fuel
          = ⟨.error .disconnected, [], none⟩) ∧
      (get_walks_intersection_ops g (R.map (fun p => p.1)) targets ≠ [] →
        (graph_replace g targets R ds ss ru fuel).result ≠ .error .disconnected ∧
        (graph_replace g targets R ds ss ru fuel).createdOps =
          (transformerRun (mkCtx g g
              (make_view_of_ops
                ((get_walks_intersection_ops g (R.map (fun p => p.1))
                  targets).filterMap g.getOp))
              ds ss ru (.replaceOrH R)) fuel).1.newOps) := by
  intro g targets R ds ss ru fuel
  constructor
  · intro hempty
    simp only [graph_replace, hempty]
    rfl
  · intro hne
    have hie : (get_walks_intersection_ops g (R.map (fun p => p.1))
        targets).isEmpty = false := by
      cases hl : get_walks_intersection_ops g (R.map (fun p => p.1)) targets with
      | nil => exact absurd hl hne
      | cons a l => rfl
    simp only [graph_replace, hie, Bool.false_eq_true, if_false]
    cases hrun : transformerRun (mkCtx g g
        (make_view_of_ops
          ((get_walks_intersection_ops g (R.map (fun p => p.1))
            targets).filterMap g.getOp))
        ds ss ru (.replaceOrH R)) fuel with
    | mk s r =>
      cases r with
      | error e => exact ⟨by simp, rfl⟩
      | ok sgv_ => exact ⟨by simp, rfl⟩

/-- Witness for C6: a disconnected concrete instance (target `u:0` does
not depend on the replaced tensor `s:0`) fails with the
disconnected-rewrite error and creates nothing, while a connected
instance (target `m:0` consumes `s:0`) does not raise it. -/
theorem c6_disconnected_rewrite_witness :
    graph_replace replaceGraph [⟨3, 0⟩] [(⟨0, 0⟩, ⟨2, 0⟩)] "" "" true 30
      = ⟨.error .disconnected, [], none⟩ ∧
    (graph_replace replaceGraph [⟨1, 0⟩] [(⟨0, 0⟩, ⟨2, 0⟩)] "" "" true 30).result
      ≠ .error .disconnected :=
  ⟨(c6_disconnected_rewrite replaceGraph [⟨3, 0⟩] [(⟨0, 0⟩, ⟨2, 0⟩)]
      "" "" true 30).1 (by decide),
   ((c6_disconnected_rewrite replaceGraph [⟨1, 0⟩] [(⟨0, 0⟩, ⟨2, 0⟩)]
      "" "" true 30).2 (by decide)).1⟩

/-- C7: for every successful targeted-replacement call, the returned
list maps each requested target positionally: a target with an entry in
the result mapping is returned as its transformed counterpart, and a
target never reached by the rewritten subgraph (no entry) is returned
unchanged - the original tensor itself, not an error and not a
duplicate. -/
theorem c7_unreached_target_passthrough :
    ∀ (g : Graph) (targets : List Tensor) (R : List (Tensor × Tensor))
      (ds ss : String) (ru : Bool) (fuel : Nat)
      (outs : List Tensor) (co : List Operation) (ri : ResultInfo),
      graph_replace g targets R ds ss ru fuel = ⟨.ok outs, co, some ri⟩ →
      outs = targets.map (fun t =>
        match alookup ri.transformedTs t with
        | none => t
        | some t_ => t_) := by
  intro g targets R ds ss ru fuel outs co ri h
  simp only [graph_replace] at h
  cases hie : (get_walks_intersection_ops g (R.map (fun p => p.1))
      targets).isEmpty with
  | true =>
    rw [hie] at h
    simp only [if_true] at h
    obtain ⟨hr, _, _⟩ := GraphReplaceRes.mk.inj h
    exact absurd hr (by simp)
  | false =>
    rw [hie] at h
    simp only [Bool.false_eq_true, if_false] at h
    cases hrun : transformerRun (mkCtx g g
        (make_view_of_ops
          ((get_walks_intersection_ops g (R.map (fun p => p.1))
            targets).filterMap g.getOp))
        ds ss ru (.replaceOrH R)) fuel with
    | mk s r =>
      rw [hrun] at h
      cases r with
      | error e =>
        simp only [] at h
        obtain ⟨hr, _, _⟩ := GraphReplaceRes.mk.inj h
        exact absurd hr (by simp)
      | ok sgv_ =>
        simp only [] at h
        obtain ⟨hr, _, hri⟩ := GraphReplaceRes.mk.inj h
        obtain rfl := Option.some.inj hri
        have houts := Except.ok.inj hr
        rw [← houts]
        exact List.map_congr_left (fun t _ => mapTargetTensor_eq _ t)

/-- Witness for C7: in the concrete targeted replacement on
`replaceGraph`, the reached target `m:0` comes back as its transformed
counterpart and the unreached target `u:0` comes back unchanged. -/
theorem c7_unreached_target_passthrough_witness :
    (graph_replace replaceGraph [⟨1, 0⟩, ⟨3, 0⟩] [(⟨0, 0⟩, ⟨2, 0⟩)]
      "" "" true 30).result = .ok [⟨4, 0⟩, ⟨3, 0⟩] := by
  rcases hres : graph_replace replaceGraph [⟨1, 0⟩, ⟨3, 0⟩]
      [(⟨0, 0⟩, ⟨2, 0⟩)] "" "" true 30 with ⟨res, co, ri?⟩
  cases res with
  | error e =>
    have hok : (graph_replace replaceGraph [⟨1, 0⟩, ⟨3, 0⟩]
        [(⟨0, 0⟩, ⟨2, 0⟩)] "" "" true 30).result.isOk = true := by decide
    rw [hres] at hok
    simp [Except.isOk, Except.toBool] at hok
  | ok outs =>
    cases ri? with
    | none =>
      have hsi : (graph_replace replaceGraph [⟨1, 0⟩, ⟨3, 0⟩]
          [(⟨0, 0⟩, ⟨2, 0⟩)] "" "" true 30).resInfo.isSome = true := by decide
      rw [hres] at hsi
      simp at hsi
    | some ri =>
      have houts := c7_unreached_target_passthrough replaceGraph
        [⟨1, 0⟩, ⟨3, 0⟩] [(⟨0, 0⟩, ⟨2, 0⟩)] "" "" true 30 outs co ri hres
      have hri : (graph_replace replaceGraph [⟨1, 0⟩, ⟨3, 0⟩]
          [(⟨0, 0⟩, ⟨2, 0⟩)] "" "" true 30).resInfo
          = some ⟨0, "", 0, "",
              [(1, 4)], [(⟨0, 0⟩, ⟨2, 0⟩), (⟨1, 0⟩, ⟨4, 0⟩)]⟩ := by decide
      rw [hres] at hri
      obtain rfl := Option.some.inj hri
      simp only []
      rw [houts]
      decide

theorem remap_index_filterMap (bl : List Tensor) (m : List (Tensor × Tensor)) :
    ∀ (orig : List Tensor),
      ((orig.filterMap (fun t =>
          match alookup m t with
          | none => none
          | some t_ => if t_ ∈ bl then some (bl.indexOf t_) else none)).filterMap
        (fun i => bl[i]?))
      = orig.filterMap (fun t =>
          match alookup m t with
          | none => none
          | some t_ => if t_ ∈ bl then some t_ else none) := by
  intro orig
  induction orig with
  | nil => simp
  | cons t rest ih =>
    cases halk : alookup m t with
    | none =>
      simp only [List.filterMap_cons, halk]
      exact ih
    | some t_ =>
      by_cases hmem : t_ ∈ bl
      · simp only [List.filterMap_cons, halk, if_pos hmem]
        rw [List.getElem?_indexOf hmem]
        simp only [List.filterMap_cons]
        rw [ih]
      · simp only [List.filterMap_cons, halk, if_neg hmem]
        exact ih

/-- C5: for every successful Transformer call, the transformed subgraph
view's boundary input and output lists are, in the original view's
order, exactly the translated counterparts of those original boundary
tensors that were translated and are boundary tensors of the new
(inferred) view; original boundary tensors whose translated counterpart
is absent - untranslated, or not a boundary tensor of the new view - are
silently dropped from the positional remap.  (The inferred boundary of
the reassembled view, `transformedViewBase`, is modelled from the spec's
external subgraph-view construction.) -/
theorem c5_boundary_order_preservation :
    ∀ (ctx : Ctx) (fuel : Nat) (s : TState) (sgvF : SubGraphView),
      transformerRun ctx fuel = (s, .ok sgvF) →
      sgvF.inputs = ctx.sgv.inputs.filterMap (fun t =>
        match alookup s.transformedTs t with
        | none => none
        | some t_ =>
          if t_ ∈ (transformedViewBase ctx s).inputs then some t_ else none) ∧
      sgvF.outputs = ctx.sgv.outputs.filterMap (fun t =>
        match alookup s.transformedTs t with
        | none => none
        | some t_ =>
          if t_ ∈ (transformedViewBase ctx s).outputs then some t_ else none) := by
  intro ctx fuel s sgvF h
  simp only [transformerRun] at h
  cases hfwd : transform_t_list ctx fuel (initState ctx) ctx.sgv.outputs with
  | mk s1 r1 =>
    rw [hfwd] at h
    cases r1 with
    | error e =>
      simp only [] at h
      obtain ⟨rfl, hr⟩ := Prod.mk.inj h
      exact absurd hr (by simp)
    | ok u1 =>
      simp only [] at h
      cases hroots : transform_op_list ctx fuel s1 (remainingRoots ctx s1) with
      | mk s2 r2 =>
        rw [hroots] at h
        cases r2 with
        | error e =>
          simp only [] at h
          obtain ⟨rfl, hr⟩ := Prod.mk.inj h
          exact absurd hr (by simp)
        | ok u2 =>
          simp only [] at h
          obtain ⟨heq, hr⟩ := Prod.mk.inj h
          obtain rfl := Except.ok.inj hr
          subst heq
          constructor
          · simp only [transform_sgv, SubGraphView.remapIO,
              SubGraphView.input_index]
            exact remap_index_filterMap _ _ _
          · simp only [transform_sgv, SubGraphView.remapIO,
              SubGraphView.output_index]
            exact remap_index_filterMap _ _ _

/-- Witness for C5: in the concrete `boundaryCtx` call, the transformed
view's boundary lists equal the positional remap of the original
boundary lists through the translation table. -/
theorem c5_boundary_order_preservation_witness :
    (transformerRun boundaryCtx 20).2.toOption.map SubGraphView.inputs
      = some [⟨2, 0⟩] ∧
    (transformerRun boundaryCtx 20).2.toOption.map SubGraphView.outputs
      = some [⟨3, 0⟩] := by
  rcases hrun : transformerRun boundaryCtx 20 with ⟨s, r⟩
  cases r with
  | error e =>
    have hok : (transformerRun boundaryCtx 20).2.isOk = true := by decide
    rw [hrun] at hok
    simp [Except.isOk, Except.toBool] at hok
  | ok sgvF =>
    obtain ⟨hin, hout⟩ :=
      c5_boundary_order_preservation boundaryCtx 20 s sgvF hrun
    have hs : (transformerRun boundaryCtx 20).1 = s := by rw [hrun]
    rw [← hs] at hin hout
    constructor
    · simp only [Except.toOption, Option.map]
      rw [hin]
      decide
    · simp only [Except.toOption, Option.map]
      rw [hout]
      decide

/-- The combined dependency test used by the traversal: operation `a`
depends on operation `b` when `b` is a control input of `a`, the
original-op backlink of `a`, or the producer of a data input of `a`. -/
def dependsB (g : Graph) (a b : Nat) : Bool :=
  match g.getOp a with
  | none => false
  | some opA =>
    decide (b ∈ opA.controlInputs) || decide (opA.originalOp = some b) ||
      opA.inputs.any (fun t => decide (t.op = b))

/-- A ranking function witnessing that the member dependency graph
(data edges, control edges and original-op backlinks) is acyclic: every
dependency strictly decreases the rank. -/
def RankOk (ctx : Ctx) (m : Nat → Nat) : Prop :=
  ∀ a ∈ ctx.sgv.ops, ∀ b ∈ ctx.sgv.ops,
    dependsB ctx.srcGraph a b = true → m b < m a

instance (ctx : Ctx) (m : Nat → Nat) : Decidable (RankOk ctx m) :=
  inferInstanceAs (Decidable (∀ a ∈ ctx.sgv.ops, ∀ b ∈ ctx.sgv.ops,
    dependsB ctx.srcGraph a b = true → m b < m a))

/-- An operation whose translation has started (its handler invocation
is logged) but has not yet been memoized. -/
def activeO (s : TState) (o : Nat) : Prop :=
  o ∈ s.opLog ∧ alookup s.transformedOps o = none

/-- A tensor whose translation has started but has not yet been
memoized. -/
def activeT (s : TState) (t : Tensor) : Prop :=
  t ∈ s.tLog ∧ alookup s.transformedTs t = none

/-- The structural invariant of reachable traversal states: the ghost
logs are duplicate-free, only member operations are ever logged, every
memoized element was logged, and every active tensor is produced by a
member operation (non-member tensors are memoized within the same
step that logs them). -/
def Jinv (ctx : Ctx) (s : TState) : Prop :=
  s.opLog.Nodup ∧ s.tLog.Nodup ∧
  (∀ o ∈ s.opLog, o ∈ ctx.sgv.ops) ∧
  (∀ o o_, alookup s.transformedOps o = some o_ → o ∈ s.opLog) ∧
  (∀ t t_, alookup s.transformedTs t = some t_ → t ∈ s.tLog) ∧
  (∀ t, t ∈ s.tLog → alookup s.transformedTs t = none → t.op ∈ ctx.sgv.ops)

/-- The generic postcondition of a balanced traversal step: logs grow by
appending, memoized entries are preserved with their values, and the
active sets are unchanged. -/
def PostS (s s' : TState) : Prop :=
  (∃ l, s'.opLog = s.opLog ++ l) ∧ (∃ l, s'.tLog = s.tLog ++ l) ∧
  (∀ o v, alookup s.transformedOps o = some v →
    alookup s'.transformedOps o = some v) ∧
  (∀ t v, alookup s.transformedTs t = some v →
    alookup s'.transformedTs t = some v) ∧
  (∀ o, activeO s' o ↔ activeO s o) ∧
  (∀ t, activeT s' t ↔ activeT s t)

theorem PostS.prfl (s : TState) : PostS s s :=
  ⟨⟨[], by simp⟩, ⟨[], by simp⟩, fun _ _ h => h, fun _ _ h => h,
   fun _ => Iff.rfl, fun _ => Iff.rfl⟩

theorem PostS.pcomp {s1 s2 s3 : TState} (h1 : PostS s1 s2)
    (h2 : PostS s2 s3) : PostS s1 s3 := by
  obtain ⟨⟨l1, hl1⟩, ⟨m1, hm1⟩, a1, b1, c1, d1⟩ := h1
  obtain ⟨⟨l2, hl2⟩, ⟨m2, hm2⟩, a2, b2, c2, d2⟩ := h2
  exact ⟨⟨l1 ++ l2, by simp [hl2, hl1]⟩, ⟨m1 ++ m2, by simp [hm2, hm1]⟩,
    fun o v h => a2 o v (a1 o v h), fun t v h => b2 t v (b1 t v h),
    fun o => (c2 o).trans (c1 o), fun t => (d2 t).trans (d1 t)⟩

/-- The postcondition of the operation-copy handler: as `PostS`, except
that the handled operation becomes (and stays) active: it is logged at
entry and not yet memoized at exit. -/
def PostCopy (s s' : TState) (o : Nat) : Prop :=
  (∃ l, s'.opLog = s.opLog ++ l) ∧ (∃ l, s'.tLog = s.tLog ++ l) ∧
  (∀ k v, alookup s.transformedOps k = some v →
    alookup s'.transformedOps k = some v) ∧
  (∀ t v, alookup s.transformedTs t = some v →
    alookup s'.transformedTs t = some v) ∧
  (∀ a, activeO s' a ↔ (activeO s a ∨ a = o)) ∧
  (∀ t, activeT s' t ↔ activeT s t) ∧
  o ∈ s'.opLog ∧ alookup s'.transformedOps o = none

/-- The preconditions of each traversal task, relative to a ranking
function: the target's rank lies strictly below every active operation
and (for operation targets, at most at) every active tensor's producer
rank. -/
def PreFor (ctx : Ctx) (m : Nat → Nat) (s : TState) : TTask → Prop
  | .tT t => t.op ∈ ctx.sgv.ops →
      ((∀ a, activeO s a → m t.op < m a) ∧
       (∀ u, activeT s u → m t.op < m u.op))
  | .tOp o => o ∈ ctx.sgv.ops ∧
      (∀ a, activeO s a → m o < m a) ∧
      (∀ u, activeT s u → m o ≤ m u.op)
  | .tCopy o => o ∈ ctx.sgv.ops ∧ alookup s.transformedOps o = none ∧
      (∀ a, activeO s a → m o < m a) ∧
      (∀ u, activeT s u → m o ≤ m u.op)
  | .tIf o? _ => ∀ o, o? = some o → o ∈ ctx.sgv.ops →
      ((∀ a, activeO s a → m o < m a) ∧
       (∀ u, activeT s u → m o ≤ m u.op))
  | .tTs ts => ∀ t ∈ ts, t.op ∈ ctx.sgv.ops →
      ((∀ a, activeO s a → m t.op < m a) ∧
       (∀ u, activeT s u → m t.op < m u.op))
  | .tCtrls cs => ∀ c ∈ cs, c ∈ ctx.sgv.ops →
      ((∀ a, activeO s a → m c < m a) ∧
       (∀ u, activeT s u → m c ≤ m u.op))

/-- The postcondition of each traversal task on success. -/
def PostFor (s s' : TState) (v : TVal) : TTask → Prop
  | .tT t => PostS s s' ∧ ∃ t_, v = .vT t_ ∧ alookup s'.transformedTs t = some t_
  | .tOp o => PostS s s' ∧ ∃ o_, v = .vOp o_ ∧ alookup s'.transformedOps o = some o_
  | .tCopy o => PostCopy s s' o ∧ ∃ o_, v = .vOp o_
  | .tIf _ _ => PostS s s' ∧ ∃ r, v = .vOpt r
  | .tTs _ => PostS s s' ∧ ∃ l, v = .vTs l
  | .tCtrls _ => PostS s s' ∧ ∃ l, v = .vCtrls l

/-- The induction motive for the traversal invariant at one fuel
level. -/
def InvMotive (ctx : Ctx) (m : Nat → Nat) (f : Nat) : Prop :=
  ∀ (s : TState) (task : TTask) (s' : TState) (v : TVal),
    transform ctx f s task = (s', .ok v) →
    Jinv ctx s → PreFor ctx m s task →
    Jinv ctx s' ∧ PostFor s s' v task

theorem inv_step_tIf (ctx : Ctx) (m : Nat → Nat) (f : Nat)
    (ih : InvMotive ctx m f) :
    ∀ (s : TState) (o? : Option Nat) (keep : Bool) (s' : TState) (v : TVal),
      transform ctx (f + 1) s (.tIf o? keep) = (s', .ok v) →
      Jinv ctx s → PreFor ctx m s (.tIf o? keep) →
      Jinv ctx s' ∧ PostFor s s' v (.tIf o? keep) := by
  intro s o? keep s' v h hJ hpre
  cases o? with
  | none =>
    simp only [transform] at h
    obtain ⟨rfl, hr⟩ := Prod.mk.inj h
    obtain rfl := Except.ok.inj hr
    exact ⟨hJ, PostS.prfl s, none, rfl⟩
  | some o =>
    simp only [transform] at h
    by_cases hmem : o ∈ ctx.sgv.ops
    · rw [if_pos hmem] at h
      cases hrec : transform ctx f s (.tOp o) with
      | mk s2 r2 =>
        rw [hrec] at h
        cases r2 with
        | error e =>
          simp only [] at h
          obtain ⟨rfl, hr⟩ := Prod.mk.inj h
          exact absurd hr (by simp)
        | ok v2 =>
          cases v2 with
          | vOp o_ =>
            simp only [] at h
            obtain ⟨hJ2, hps, _⟩ :=
              ih s (.tOp o) s2 (.vOp o_) hrec hJ
                ⟨hmem, (hpre o rfl hmem).1, (hpre o rfl hmem).2⟩
            obtain ⟨rfl, hr⟩ := Prod.mk.inj h
            obtain rfl := Except.ok.inj hr
            exact ⟨hJ2, hps, some o_, rfl⟩
          | vT u =>
            simp only [] at h
            obtain ⟨rfl, hr⟩ := Prod.mk.inj h
            exact absurd hr (by simp)
          | vOpt u =>
            simp only [] at h
            obtain ⟨rfl, hr⟩ := Prod.mk.inj h
            exact absurd hr (by simp)
          | vTs u =>
            simp only [] at h
            obtain ⟨rfl, hr⟩ := Prod.mk.inj h
            exact absurd hr (by simp)
          | vCtrls u =>
            simp only [] at h
            obtain ⟨rfl, hr⟩ := Prod.mk.inj h
            exact absurd hr (by simp)
    · rw [if_neg hmem] at h
      split at h
      · obtain ⟨rfl, hr⟩ := Prod.mk.inj h
        obtain rfl := Except.ok.inj hr
        exact ⟨hJ, PostS.prfl s, some o, rfl⟩
      · obtain ⟨rfl, hr⟩ := Prod.mk.inj h
        obtain rfl := Except.ok.inj hr
        exact ⟨hJ, PostS.prfl s, none, rfl⟩

theorem inv_step_tTs (ctx : Ctx) (m : Nat → Nat) (f : Nat)
    (ih : InvMotive ctx m f) :
    ∀ (ts : List Tensor) (s : TState) (s' : TState) (v : TVal),
      transform ctx (f + 1) s (.tTs ts) = (s', .ok v) →
      Jinv ctx s → PreFor ctx m s (.tTs ts) →
      Jinv ctx s' ∧ PostFor s s' v (.tTs ts) := by
  intro ts
  induction ts with
  | nil =>
    intro s s' v h hJ _
    simp only [transform] at h
    obtain ⟨rfl, hr⟩ := Prod.mk.inj h
    obtain rfl := Except.ok.inj hr
    exact ⟨hJ, PostS.prfl s, [], rfl⟩
  | cons t rest ihl =>
    intro s s' v h hJ hpre
    simp only [transform] at h
    cases h1 : transform ctx f s (.tT t) with
    | mk s2 r2 =>
      rw [h1] at h
      cases r2 with
      | error e =>
        simp only [] at h
        obtain ⟨rfl, hr⟩ := Prod.mk.inj h
        exact absurd hr (by simp)
      | ok v2 =>
        cases v2 with
        | vT t_ =>
          simp only [] at h
          obtain ⟨hJ2, hps2, _⟩ :=
            ih s (.tT t) s2 (.vT t_) h1 hJ (hpre t (by simp))
          cases h2 : transform ctx f s2 (.tTs rest) with
          | mk s3 r3 =>
            rw [h2] at h
            cases r3 with
            | error e =>
              simp only [] at h
              obtain ⟨rfl, hr⟩ := Prod.mk.inj h
              exact absurd hr (by simp)
            | ok v3 =>
              cases v3 with
              | vTs rest_ =>
                simp only [] at h
                obtain ⟨rfl, hr⟩ := Prod.mk.inj h
                obtain rfl := Except.ok.inj hr
                have hpre3 : PreFor ctx m s2 (.tTs rest) := by
                  intro u hu hmem
                  refine ⟨?_, ?_⟩
                  · intro a ha
                    exact (hpre u (by simp [hu]) hmem).1 a ((hps2.2.2.2.2.1 a).mp ha)
                  · intro w hw
                    exact (hpre u (by simp [hu]) hmem).2 w ((hps2.2.2.2.2.2 w).mp hw)
                have hstep3 : transform ctx f s2 (.tTs rest) = (s3, .ok (.vTs rest_)) := h2
                obtain ⟨hJ3, hps3, _⟩ :=
                  ih s2 (.tTs rest) s3 (.vTs rest_) hstep3 hJ2 hpre3
                exact ⟨hJ3, hps2.pcomp hps3, t_ :: rest_, rfl⟩
              | vT u =>
                simp only [] at h
                obtain ⟨rfl, hr⟩ := Prod.mk.inj h
                exact absurd hr (by simp)
              | vOp u =>
                simp only [] at h
                obtain ⟨rfl, hr⟩ := Prod.mk.inj h
                exact absurd hr (by simp)
              | vOpt u =>
                simp only [] at h
                obtain ⟨rfl, hr⟩ := Prod.mk.inj h
                exact absurd hr (by simp)
              | vCtrls u =>
                simp only [] at h
                obtain ⟨rfl, hr⟩ := Prod.mk.inj h
                exact absurd hr (by simp)
        | vOp u =>
          simp only [] at h
          obtain ⟨rfl, hr⟩ := Prod.mk.inj h
          exact absurd hr (by simp)
        | vOpt u =>
          simp only [] at h
          obtain ⟨rfl, hr⟩ := Prod.mk.inj h
          exact absurd hr (by simp)
        | vTs u =>
          simp only [] at h
          obtain ⟨rfl, hr⟩ := Prod.mk.inj h
          exact absurd hr (by simp)
        | vCtrls u =>
          simp only [] at h
          obtain ⟨rfl, hr⟩ := Prod.mk.inj h
          exact absurd hr (by simp)

theorem inv_step_tCtrls (ctx : Ctx) (m : Nat → Nat) (f : Nat)
    (ih : InvMotive ctx m f) :
    ∀ (cs : List Nat) (s : TState) (s' : TState) (v : TVal),
      transform ctx (f + 1) s (.tCtrls cs) = (s', .ok v) →
      Jinv ctx s → PreFor ctx m s (.tCtrls cs) →
      Jinv ctx s' ∧ PostFor s s' v (.tCtrls cs) := by
  intro cs
  induction cs with
  | nil =>
    intro s s' v h hJ _
    simp only [transform] at h
    obtain ⟨rfl, hr⟩ := Prod.mk.inj h
    obtain rfl := Except.ok.inj hr
    exact ⟨hJ, PostS.prfl s, [], rfl⟩
  | cons c rest ihl =>
    intro s s' v h hJ hpre
    simp only [transform] at h
    cases h1 : transform ctx f s (.tIf (some c) true) with
    | mk s2 r2 =>
      rw [h1] at h
      cases r2 with
      | error e =>
        simp only [] at h
        obtain ⟨rfl, hr⟩ := Prod.mk.inj h
        exact absurd hr (by simp)
      | ok v2 =>
        cases v2 with
        | vOpt c_ =>
          simp only [] at h
          obtain ⟨hJ2, hps2, _⟩ :=
            ih s (.tIf (some c) true) s2 (.vOpt c_) h1 hJ
              (by
                intro o ho hmem
                have hco := Option.some.inj ho
                subst hco
                exact hpre c (by simp) hmem)
          cases h2 : transform ctx f s2 (.tCtrls rest) with
          | mk s3 r3 =>
            rw [h2] at h
            cases r3 with
            | error e =>
              simp only [] at h
              obtain ⟨rfl, hr⟩ := Prod.mk.inj h
              exact absurd hr (by simp)
            | ok v3 =>
              cases v3 with
              | vCtrls rest_ =>
                simp only [] at h
                obtain ⟨rfl, hr⟩ := Prod.mk.inj h
                obtain rfl := Except.ok.inj hr
                have hpre3 : PreFor ctx m s2 (.tCtrls rest) := by
                  intro u hu hmem
                  refine ⟨?_, ?_⟩
                  · intro a ha
                    exact (hpre u (by simp [hu]) hmem).1 a ((hps2.2.2.2.2.1 a).mp ha)
                  · intro w hw
                    exact (hpre u (by simp [hu]) hmem).2 w ((hps2.2.2.2.2.2 w).mp hw)
                obtain ⟨hJ3, hps3, _⟩ :=
                  ih s2 (.tCtrls rest) s3 (.vCtrls rest_) h2 hJ2 hpre3
                exact ⟨hJ3, hps2.pcomp hps3, c_ :: rest_, rfl⟩
              | vT u =>
                simp only [] at h
                obtain ⟨rfl, hr⟩ := Prod.mk.inj h
                exact absurd hr (by simp)
              | vOp u =>
                simp only [] at h
                obtain ⟨rfl, hr⟩ := Prod.mk.inj h
                exact absurd hr (by simp)
              | vOpt u =>
                simp only [] at h
                obtain ⟨rfl, hr⟩ := Prod.mk.inj h
                exact absurd hr (by simp)
              | vTs u =>
                simp only [] at h
                obtain ⟨rfl, hr⟩ := Prod.mk.inj h
                exact absurd hr (by simp)
        | vT u =>
          simp only [] at h
          obtain ⟨rfl, hr⟩ := Prod.mk.inj h
          exact absurd hr (by simp)
        | vOp u =>
          simp only [] at h
          obtain ⟨rfl, hr⟩ := Prod.mk.inj h
          exact absurd hr (by simp)
        | vTs u =>
          simp only [] at h
          obtain ⟨rfl, hr⟩ := Prod.mk.inj h
          exact absurd hr (by simp)
        | vCtrls u =>
          simp only [] at h
          obtain ⟨rfl, hr⟩ := Prod.mk.inj h
          exact absurd hr (by simp)

theorem inv_step_tT (ctx : Ctx) (m : Nat → Nat) (f : Nat)
    (ih : InvMotive ctx m f) :
    ∀ (s : TState) (t : Tensor) (s' : TState) (v : TVal),
      transform ctx (f + 1) s (.tT t) = (s', .ok v) →
      Jinv ctx s → PreFor ctx m s (.tT t) →
      Jinv ctx s' ∧ PostFor s s' v (.tT t) := by
  intro s t s' v h hJ hpre
  obtain ⟨hnodO, hnodT, hlogmem, hopslog, htslog, hactmem⟩ := hJ
  simp only [transform] at h
  cases halk : alookup s.transformedTs t with
  | some t_ =>
    rw [halk] at h
    simp only [] at h
    obtain ⟨rfl, hr⟩ := Prod.mk.inj h
    obtain rfl := Except.ok.inj hr
    exact ⟨⟨hnodO, hnodT, hlogmem, hopslog, htslog, hactmem⟩,
      PostS.prfl s, t_, rfl, halk⟩
  | none =>
    rw [halk] at h
    simp only [] at h
    have htnl : t ∉ s.tLog := by
      intro htl
      by_cases hmem : t.op ∈ ctx.sgv.ops
      · exact absurd ((hpre hmem).2 t ⟨htl, halk⟩) (lt_irrefl _)
      · exact hmem (hactmem t htl halk)
    have hnodT1 : (s.tLog ++ [t]).Nodup := by
      simp [List.nodup_append, hnodT, htnl]
    by_cases hmem : t.op ∈ ctx.sgv.ops
    · rw [if_pos hmem] at h
      cases hrec : transform ctx f { s with tLog := s.tLog ++ [t] } (.tOp t.op) with
      | mk s2 r2 =>
        rw [hrec] at h
        cases r2 with
        | error e =>
          simp only [] at h
          obtain ⟨rfl, hr⟩ := Prod.mk.inj h
          exact absurd hr (by simp)
        | ok v2 =>
          cases v2 with
          | vOp o_ =>
            simp only [] at h
            have hactT1 : ∀ u, activeT { s with tLog := s.tLog ++ [t] } u ↔
                (activeT s u ∨ u = t) := by
              intro u
              simp only [activeT]
              constructor
              · rintro ⟨hm', hlk⟩
                rcases List.mem_append.mp hm' with h' | h'
                · exact Or.inl ⟨h', hlk⟩
                · simp at h'
                  subst h'
                  exact Or.inr rfl
              · rintro (⟨hm', hlk⟩ | rfl)
                · exact ⟨List.mem_append_left _ hm', hlk⟩
                · exact ⟨List.mem_append_right _ (by simp), halk⟩
            have hJ1 : Jinv ctx { s with tLog := s.tLog ++ [t] } := by
              refine ⟨hnodO, hnodT1, hlogmem, hopslog, ?_, ?_⟩
              · intro u u_ hlk
                exact List.mem_append_left _ (htslog u u_ hlk)
              · intro u hu hlk
                rcases List.mem_append.mp hu with h' | h'
                · exact hactmem u h' hlk
                · simp at h'
                  subst h'
                  exact hmem
            have hpre2 : PreFor ctx m { s with tLog := s.tLog ++ [t] }
                (.tOp t.op) := by
              refine ⟨hmem, ?_, ?_⟩
              · intro a ha
                exact (hpre hmem).1 a ha
              · intro u hu
                rcases (hactT1 u).mp hu with h' | rfl
                · exact le_of_lt ((hpre hmem).2 u h')
                · exact le_refl _
            obtain ⟨hJ2, hps2, o2, hv2, hlk2⟩ :=
              ih _ (.tOp t.op) s2 (.vOp o_) hrec hJ1 hpre2
            have hv2i := TVal.vOp.inj hv2
            subst hv2i
            obtain ⟨e1, e2, e3, e4, e5, e6⟩ :=
              finishT_state ctx s2 t ⟨o_, t.idx⟩ s' (.ok v) h
            obtain ⟨hlkt, hvf⟩ := e6 v rfl
            obtain ⟨⟨lo, hlo⟩, ⟨lt', hlt⟩, hvo, hvt, hao, hat⟩ := hps2
            obtain ⟨hnodO2, hnodT2, hlogmem2, hopslog2, htslog2, hactmem2⟩ := hJ2
            have hpost : PostS s s' := by
              refine ⟨⟨lo, by rw [e2, hlo]⟩, ⟨[t] ++ lt', by rw [e3, hlt]; simp⟩,
                ?_, ?_, ?_, ?_⟩
              · intro o v0 hv0
                rw [e1]
                exact hvo o v0 hv0
              · intro u v0 hv0
                have hut : u ≠ t := by
                  intro hc
                  subst hc
                  rw [halk] at hv0
                  exact absurd hv0 (by simp)
                rw [e5 u hut]
                exact hvt u v0 hv0
              · intro a
                have : activeO s' a ↔ activeO s2 a := by
                  simp [activeO, e1, e2]
                rw [this, hao a]
                simp [activeO]
              · intro u
                by_cases hut : u = t
                · subst hut
                  constructor
                  · rintro ⟨_, hlk⟩
                    rw [hlkt] at hlk
                    exact absurd hlk (by simp)
                  · rintro ⟨hm', _⟩
                    exact absurd hm' htnl
                · have : activeT s' u ↔ activeT s2 u := by
                    simp [activeT, e3, e5 u hut]
                  rw [this, hat u, hactT1 u]
                  simp [hut]
            refine ⟨?_, hpost, ⟨o_, t.idx⟩, hvf, hlkt⟩
            refine ⟨by rw [e2]; exact hnodO2, by rw [e3]; exact hnodT2,
              ?_, ?_, ?_, ?_⟩
            · intro o ho
              rw [e2] at ho
              exact hlogmem2 o ho
            · intro o o_0 hlk
              rw [e1] at hlk
              rw [e2]
              exact hopslog2 o o_0 hlk
            · intro u u_ hlk
              by_cases hut : u = t
              · subst hut
                rw [e3, hlt]
                exact List.mem_append_left _ (List.mem_append_right _ (by simp))
              · rw [e5 u hut] at hlk
                rw [e3]
                exact htslog2 u u_ hlk
            · intro u hu hlk
              have hut : u ≠ t := by
                intro hc
                subst hc
                rw [hlkt] at hlk
                exact absurd hlk (by simp)
              rw [e3] at hu
              rw [e5 u hut] at hlk
              exact hactmem2 u hu hlk
          | vT u =>
            simp only [] at h
            obtain ⟨rfl, hr⟩ := Prod.mk.inj h
            exact absurd hr (by simp)
          | vOpt u =>
            simp only [] at h
            obtain ⟨rfl, hr⟩ := Prod.mk.inj h
            exact absurd hr (by simp)
          | vTs u =>
            simp only [] at h
            obtain ⟨rfl, hr⟩ := Prod.mk.inj h
            exact absurd hr (by simp)
          | vCtrls u =>
            simp only [] at h
            obtain ⟨rfl, hr⟩ := Prod.mk.inj h
            exact absurd hr (by simp)
    · rw [if_neg hmem] at h
      have hnonmem : ∀ (s2 : TState) (t_ : Tensor),
          s2.transformedOps = s.transformedOps →
          s2.transformedTs = s.transformedTs →
          s2.opLog = s.opLog → s2.tLog = s.tLog ++ [t] →
          finishT ctx s2 t t_ = (s', .ok v) →
          Jinv ctx s' ∧ PostFor s s' v (.tT t) := by
        intro s2 t_ g1 g2 g3 g4 hfin
        obtain ⟨e1, e2, e3, e4, e5, e6⟩ :=
          finishT_state ctx s2 t t_ s' (.ok v) hfin
        obtain ⟨hlkt, hvf⟩ := e6 v rfl
        have hpost : PostS s s' := by
          refine ⟨⟨[], by rw [e2, g3]; simp⟩, ⟨[t], by rw [e3, g4]⟩,
            ?_, ?_, ?_, ?_⟩
          · intro o v0 hv0
            rw [e1, g1]
            exact hv0
          · intro u v0 hv0
            have hut : u ≠ t := by
              intro hc
              subst hc
              rw [halk] at hv0
              exact absurd hv0 (by simp)
            rw [e5 u hut, g2]
            exact hv0
          · intro a
            simp [activeO, e1, e2, g1, g3]
          · intro u
            by_cases hut : u = t
            · subst hut
              constructor
              · rintro ⟨_, hlk⟩
                rw [hlkt] at hlk
                exact absurd hlk (by simp)
              · rintro ⟨hm', _⟩
                exact absurd hm' htnl
            · have : activeT s' u ↔ activeT s2 u := by
                simp [activeT, e3, e5 u hut]
              rw [this]
              simp only [activeT, g2, g4]
              constructor
              · rintro ⟨hm', hlk⟩
                rcases List.mem_append.mp hm' with h' | h'
                · exact ⟨h', hlk⟩
                · simp at h'
                  exact absurd h' hut
              · rintro ⟨hm', hlk⟩
                exact ⟨List.mem_append_left _ hm', hlk⟩
        refine ⟨?_, hpost, t_, hvf, hlkt⟩
        refine ⟨by rw [e2, g3]; exact hnodO, by rw [e3, g4]; exact hnodT1,
          ?_, ?_, ?_, ?_⟩
        · intro o ho
          rw [e2, g3] at ho
          exact hlogmem o ho
        · intro o o_0 hlk
          rw [e1, g1] at hlk
          rw [e2, g3]
          exact hopslog o o_0 hlk
        · intro u u_ hlk
          by_cases hut : u = t
          · subst hut
            rw [e3, g4]
            exact List.mem_append_right _ (by simp)
          · rw [e5 u hut, g2] at hlk
            rw [e3, g4]
            exact List.mem_append_left _ (htslog u u_ hlk)
        · intro u hu hlk
          have hut : u ≠ t := by
            intro hc
            subst hc
            rw [hlkt] at hlk
            exact absurd hlk (by simp)
          rw [e3, g4] at hu
          rw [e5 u hut, g2] at hlk
          rcases List.mem_append.mp hu with h' | h'
          · exact hactmem u h' hlk
          · simp at h'
            exact absurd h' hut
      by_cases hin : t ∈ ctx.sgv.inputs
      · rw [if_pos hin] at h
        cases happ : applyExtHandler ctx { s with tLog := s.tLog ++ [t] } t with
        | mk s2 t_ =>
          rw [happ] at h
          simp only [] at h
          obtain ⟨g1, g2, g3, g4⟩ :=
            applyExtHandler_state ctx { s with tLog := s.tLog ++ [t] } t
          rw [happ] at g1 g2 g3 g4
          exact hnonmem s2 t_ g1 g2 g3 g4 h
      · rw [if_neg hin] at h
        cases hkp : keep_t_if_possible ctx { s with tLog := s.tLog ++ [t] } t with
        | mk s2 t_ =>
          rw [hkp] at h
          simp only [] at h
          obtain ⟨g1, g2, g3, g4⟩ :=
            keep_t_if_possible_state ctx { s with tLog := s.tLog ++ [t] } t
          rw [hkp] at g1 g2 g3 g4
          exact hnonmem s2 t_ g1 g2 g3 g4 h

theorem Jinv_of_eq (ctx : Ctx) {s s' : TState}
    (h1 : s'.transformedOps = s.transformedOps)
    (h2 : s'.transformedTs = s.transformedTs)
    (h3 : s'.opLog = s.opLog) (h4 : s'.tLog = s.tLog)
    (hJ : Jinv ctx s) : Jinv ctx s' := by
  obtain ⟨a, b, c, d, e, g⟩ := hJ
  refine ⟨?_, ?_, ?_, ?_, ?_, ?_⟩
  · rw [h3]; exact a
  · rw [h4]; exact b
  · rw [h3]; exact c
  · rw [h1, h3]; exact d
  · rw [h2, h4]; exact e
  · rw [h2, h4]; exact g

theorem inv_step_tOp (ctx : Ctx) (m : Nat → Nat) (f : Nat)
    (ih : InvMotive ctx m f) :
    ∀ (s : TState) (o : Nat) (s' : TState) (v : TVal),
      transform ctx (f + 1) s (.tOp o) = (s', .ok v) →
      Jinv ctx s → PreFor ctx m s (.tOp o) →
      Jinv ctx s' ∧ PostFor s s' v (.tOp o) := by
  intro s o s' v h hJ hpre
  obtain ⟨hmem, hao, hat⟩ := hpre
  simp only [transform] at h
  cases halk : alookup s.transformedOps o with
  | some o_ =>
    rw [halk] at h
    simp only [] at h
    obtain ⟨rfl, hr⟩ := Prod.mk.inj h
    obtain rfl := Except.ok.inj hr
    exact ⟨hJ, PostS.prfl s, o_, rfl, halk⟩
  | none =>
    rw [halk] at h
    simp only [] at h
    cases hrec : transform ctx f s (.tCopy o) with
    | mk s2 r2 =>
      rw [hrec] at h
      cases r2 with
      | error e =>
        simp only [] at h
        obtain ⟨rfl, hr⟩ := Prod.mk.inj h
        exact absurd hr (by simp)
      | ok v2 =>
        cases v2 with
        | vOp o_ =>
          simp only [] at h
          obtain ⟨hJ2, hpc, o2, hv2⟩ :=
            ih s (.tCopy o) s2 (.vOp o_) hrec hJ ⟨hmem, halk, hao, hat⟩
          have hv2i := TVal.vOp.inj hv2
          subst hv2i
          obtain ⟨⟨lo, hlo⟩, ⟨lt', hlt⟩, hvo, hvt, haoC, hatC, homem, holk⟩ := hpc
          have hnao : ¬ activeO s o := fun hc => absurd (hao o hc) (lt_irrefl _)
          have hfinal : ∀ (s3 : TState),
              s3.transformedOps = s2.transformedOps →
              s3.transformedTs = s2.transformedTs →
              s3.opLog = s2.opLog → s3.tLog = s2.tLog →
              Jinv ctx { s3 with transformedOps := ainsert s3.transformedOps o o_ } ∧
              PostS s { s3 with transformedOps := ainsert s3.transformedOps o o_ } ∧
              alookup (ainsert s3.transformedOps o o_) o = some o_ := by
            intro s3 q1 q2 q3 q4
            obtain ⟨hnodO2, hnodT2, hlogmem2, hopslog2, htslog2, hactmem2⟩ := hJ2
            have hself : alookup (ainsert s3.transformedOps o o_) o = some o_ :=
              alookup_ainsert_self _ _ _
            have hother : ∀ k, k ≠ o →
                alookup (ainsert s3.transformedOps o o_) k
                  = alookup s2.transformedOps k := by
              intro k hk
              rw [alookup_ainsert_ne _ _ _ _ (fun hc => hk hc.symm), q1]
            refine ⟨?_, ?_, hself⟩
            · refine ⟨by simp only [q3]; exact hnodO2,
                by simp only [q4]; exact hnodT2, ?_, ?_, ?_, ?_⟩
              · intro u hu
                simp only [q3] at hu
                exact hlogmem2 u hu
              · intro k k_ hlk
                simp only [] at hlk
                by_cases hk : k = o
                · subst hk
                  simp only [q3]
                  exact homem
                · rw [hother k hk] at hlk
                  simp only [q3]
                  exact hopslog2 k k_ hlk
              · intro u u_ hlk
                simp only [q2] at hlk
                simp only [q4]
                exact htslog2 u u_ hlk
              · intro u hu hlk
                simp only [q4] at hu
                simp only [q2] at hlk
                exact hactmem2 u hu hlk
            · refine ⟨⟨lo, by simp only [q3]; exact hlo⟩,
                ⟨lt', by simp only [q4]; exact hlt⟩, ?_, ?_, ?_, ?_⟩
              · intro k w hw
                have hk : k ≠ o := by
                  intro hc
                  subst hc
                  rw [halk] at hw
                  exact absurd hw (by simp)
                simp only []
                rw [hother k hk]
                exact hvo k w hw
              · intro u w hw
                simp only [q2]
                exact hvt u w hw
              · intro a
                by_cases hka : a = o
                · subst hka
                  constructor
                  · rintro ⟨_, hlk⟩
                    simp only [] at hlk
                    rw [hself] at hlk
                    exact absurd hlk (by simp)
                  · intro hc
                    exact absurd hc hnao
                · have h1 : activeO { s3 with
                      transformedOps := ainsert s3.transformedOps o o_ } a
                      ↔ activeO s2 a := by
                    simp only [activeO, q3]
                    rw [hother a hka]
                  rw [h1, haoC a]
                  simp [hka]
              · intro u
                have h1 : activeT { s3 with
                    transformedOps := ainsert s3.transformedOps o o_ } u
                    ↔ activeT s2 u := by
                  simp only [activeT, q2, q4]
                rw [h1, hatC u]
          by_cases hne : o = o_
          · rw [if_neg (by simp [hne])] at h
            simp only [] at h
            obtain ⟨rfl, hr⟩ := Prod.mk.inj h
            obtain rfl := Except.ok.inj hr
            obtain ⟨hja, hpa, hka⟩ := hfinal s2 rfl rfl rfl rfl
            exact ⟨hja, hpa, o_, rfl, hka⟩
          · rw [if_pos hne] at h
            cases hasn : assign_renamed_collections ctx s2 ctx.srcGraph.collections
                (.opE o) (.opE o_) with
            | mk s3 r3 =>
              rw [hasn] at h
              simp only [] at h
              cases r3 with
              | error e =>
                simp only [] at h
                obtain ⟨rfl, hr⟩ := Prod.mk.inj h
                exact absurd hr (by simp)
              | ok u =>
                simp only [] at h
                obtain ⟨rfl, hr⟩ := Prod.mk.inj h
                obtain rfl := Except.ok.inj hr
                obtain ⟨q1, q2, q3, q4, _, _⟩ :=
                  assign_renamed_collections_state ctx _ s2 _ _ s3 (.ok u) hasn
                obtain ⟨hja, hpa, hka⟩ := hfinal s3 q1 q2 q3 q4
                exact ⟨hja, hpa, o_, rfl, hka⟩
        | vT u =>
          simp only [] at h
          obtain ⟨rfl, hr⟩ := Prod.mk.inj h
          exact absurd hr (by simp)
        | vOpt u =>
          simp only [] at h
          obtain ⟨rfl, hr⟩ := Prod.mk.inj h
          exact absurd hr (by simp)
        | vTs u =>
          simp only [] at h
          obtain ⟨rfl, hr⟩ := Prod.mk.inj h
          exact absurd hr (by simp)
        | vCtrls u =>
          simp only [] at h
          obtain ⟨rfl, hr⟩ := Prod.mk.inj h
          exact absurd hr (by simp)

theorem inv_step_tCopy (ctx : Ctx) (m : Nat → Nat) (hrank : RankOk ctx m)
    (f : Nat) (ih : InvMotive ctx m f) :
    ∀ (s : TState) (o : Nat) (s' : TState) (v : TVal),
      transform ctx (f + 1) s (.tCopy o) = (s', .ok v) →
      Jinv ctx s → PreFor ctx m s (.tCopy o) →
      Jinv ctx s' ∧ PostFor s s' v (.tCopy o) := by
  intro s o s' v h hJ hpre
  obtain ⟨hmem, halk, hao, hat⟩ := hpre
  obtain ⟨hnodO, hnodT, hlogmem, hopslog, htslog, hactmem⟩ := hJ
  simp only [transform] at h
  cases hop : ctx.srcGraph.getOp o with
  | none =>
    rw [hop] at h
    simp only [] at h
    obtain ⟨rfl, hr⟩ := Prod.mk.inj h
    exact absurd hr (by simp)
  | some op =>
    rw [hop] at h
    simp only [] at h
    have honl : o ∉ s.opLog := fun hc => absurd (hao o ⟨hc, halk⟩) (lt_irrefl _)
    have hnodO1 : (s.opLog ++ [o]).Nodup := by
      simp [List.nodup_append, hnodO, honl]
    have haoc : ∀ a, activeO { s with opLog := s.opLog ++ [o] } a ↔
        (activeO s a ∨ a = o) := by
      intro a
      simp only [activeO]
      constructor
      · rintro ⟨hm', hlk⟩
        rcases List.mem_append.mp hm' with h' | h'
        · exact Or.inl ⟨h', hlk⟩
        · simp at h'
          subst h'
          exact Or.inr rfl
      · rintro (⟨hm', hlk⟩ | rfl)
        · exact ⟨List.mem_append_left _ hm', hlk⟩
        · exact ⟨List.mem_append_right _ (by simp), halk⟩
    have hatc : ∀ u, activeT { s with opLog := s.opLog ++ [o] } u ↔
        activeT s u := by
      intro u
      simp [activeT]
    have hJ1 : Jinv ctx { s with opLog := s.opLog ++ [o] } := by
      refine ⟨hnodO1, hnodT, ?_, ?_, htslog, hactmem⟩
      · intro u hu
        rcases List.mem_append.mp hu with h' | h'
        · exact hlogmem u h'
        · simp at h'
          subst h'
          exact hmem
      · intro k k_ hlk
        exact List.mem_append_left _ (hopslog k k_ hlk)
    have hpreC : PreFor ctx m { s with opLog := s.opLog ++ [o] }
        (.tCtrls op.controlInputs) := by
      intro c hc hcm
      have hdc : dependsB ctx.srcGraph o c = true := by
        simp only [dependsB, hop, Bool.or_eq_true, decide_eq_true_eq,
          List.any_eq_true]
        exact Or.inl (Or.inl hc)
      have hmc : m c < m o := hrank o hmem c hcm hdc
      constructor
      · intro a ha
        rcases (haoc a).mp ha with h' | rfl
        · exact lt_trans hmc (hao a h')
        · exact hmc
      · intro u hu
        exact le_of_lt (lt_of_lt_of_le hmc (hat u ((hatc u).mp hu)))
    cases hc1 : transform ctx f { s with opLog := s.opLog ++ [o] }
        (.tCtrls op.controlInputs) with
    | mk s2 r2 =>
      rw [hc1] at h
      cases r2 with
      | error e =>
        simp only [] at h
        obtain ⟨rfl, hr⟩ := Prod.mk.inj h
        exact absurd hr (by simp)
      | ok v2 =>
        cases v2 with
        | vCtrls cis =>
          simp only [] at h
          obtain ⟨hJ2, hps2, cis0, hv2⟩ :=
            ih _ (.tCtrls op.controlInputs) s2 (.vCtrls cis) hc1 hJ1 hpreC
          have hao2 : ∀ a, activeO s2 a ↔ (activeO s a ∨ a = o) := by
            intro a
            rw [hps2.2.2.2.2.1 a, haoc a]
          have hat2 : ∀ u, activeT s2 u ↔ activeT s u := by
            intro u
            rw [hps2.2.2.2.2.2 u, hatc u]
          have hpreI : PreFor ctx m s2 (.tIf op.originalOp true) := by
            intro b hb hbm
            have hdb : dependsB ctx.srcGraph o b = true := by
              simp only [dependsB, hop, Bool.or_eq_true, decide_eq_true_eq,
                List.any_eq_true]
              exact Or.inl (Or.inr hb)
            have hmb : m b < m o := hrank o hmem b hbm hdb
            constructor
            · intro a ha
              rcases (hao2 a).mp ha with h' | rfl
              · exact lt_trans hmb (hao a h')
              · exact hmb
            · intro u hu
              exact le_of_lt (lt_of_lt_of_le hmb (hat u ((hat2 u).mp hu)))
          cases hi1 : transform ctx f s2 (.tIf op.originalOp true) with
          | mk s3 r3 =>
            rw [hi1] at h
            cases r3 with
            | error e =>
              simp only [] at h
              obtain ⟨rfl, hr⟩ := Prod.mk.inj h
              exact absurd hr (by simp)
            | ok v3 =>
              cases v3 with
              | vOpt orig_ =>
                simp only [] at h
                obtain ⟨hJ3, hps3, _⟩ :=
                  ih s2 (.tIf op.originalOp true) s3 (.vOpt orig_) hi1 hJ2 hpreI
                have hao3 : ∀ a, activeO s3 a ↔ (activeO s a ∨ a = o) := by
                  intro a
                  rw [hps3.2.2.2.2.1 a, hao2 a]
                have hat3 : ∀ u, activeT s3 u ↔ activeT s u := by
                  intro u
                  rw [hps3.2.2.2.2.2 u, hat2 u]
                have hpreT : PreFor ctx m s3 (.tTs op.inputs) := by
                  intro t ht htm
                  have hdt : dependsB ctx.srcGraph o t.op = true := by
                    simp only [dependsB, hop, Bool.or_eq_true, decide_eq_true_eq,
                      List.any_eq_true]
                    exact Or.inr ⟨t, ht, rfl⟩
                  have hmt : m t.op < m o := hrank o hmem t.op htm hdt
                  constructor
                  · intro a ha
                    rcases (hao3 a).mp ha with h' | rfl
                    · exact lt_trans hmt (hao a h')
                    · exact hmt
                  · intro u hu
                    exact lt_of_lt_of_le hmt (hat u ((hat3 u).mp hu))
                cases ht1 : transform ctx f s3 (.tTs op.inputs) with
                | mk s4 r4 =>
                  rw [ht1] at h
                  cases r4 with
                  | error e =>
                    simp only [] at h
                    obtain ⟨rfl, hr⟩ := Prod.mk.inj h
                    exact absurd hr (by simp)
                  | ok v4 =>
                    cases v4 with
                    | vTs ins_ =>
                      simp only [] at h
                      obtain ⟨hJ4, hps4, _⟩ :=
                        ih s3 (.tTs op.inputs) s4 (.vTs ins_) ht1 hJ3 hpreT
                      cases hnn : new_name ctx.scope ctx.scope_ op.name with
                      | error e =>
                        rw [hnn] at h
                        simp only [] at h
                        obtain ⟨rfl, hr⟩ := Prod.mk.inj h
                        exact absurd hr (by simp)
                      | ok nm0 =>
                        rw [hnn] at h
                        simp only [] at h
                        obtain ⟨rfl, hr⟩ := Prod.mk.inj h
                        obtain rfl := Except.ok.inj hr
                        have hps14 : PostS { s with opLog := s.opLog ++ [o] } s4 :=
                          (hps2.pcomp hps3).pcomp hps4
                        obtain ⟨⟨lo, hlo⟩, ⟨lt', hlt⟩, hvo14, hvt14, hao14, hat14⟩ :=
                          hps14
                        refine ⟨Jinv_of_eq ctx rfl rfl rfl rfl hJ4, ?_,
                          s4.nextId, rfl⟩
                        refine ⟨⟨[o] ++ lo, by simp only []; rw [hlo]; simp⟩,
                          ⟨lt', by simp only []; rw [hlt]⟩, ?_, ?_, ?_, ?_, ?_, ?_⟩
                        · intro k w hw
                          exact hvo14 k w hw
                        · intro u w hw
                          exact hvt14 u w hw
                        · intro a
                          have h1 : activeO { s4 with
                              newOps := s4.newOps ++
                                [⟨s4.nextId, unique_name (dstUsedNames ctx s4) nm0,
                                  ins_, op.numOutputs, cis.filterMap id, orig_⟩],
                              nextId := s4.nextId + 1 } a ↔ activeO s4 a := by
                            simp [activeO]
                          rw [h1, hao14 a, haoc a]
                        · intro u
                          have h1 : activeT { s4 with
                              newOps := s4.newOps ++
                                [⟨s4.nextId, unique_name (dstUsedNames ctx s4) nm0,
                                  ins_, op.numOutputs, cis.filterMap id, orig_⟩],
                              nextId := s4.nextId + 1 } u ↔ activeT s4 u := by
                            simp [activeT]
                          rw [h1, hat14 u, hatc u]
                        · simp only []
                          rw [hlo]
                          exact List.mem_append_left _
                            (List.mem_append_right _ (by simp))
                        · have h1 : activeO s4 o := by
                            rw [hao14 o, haoc o]
                            exact Or.inr rfl
                          exact h1.2
                    | vT u =>
                      simp only [] at h
                      obtain ⟨rfl, hr⟩ := Prod.mk.inj h
                      exact absurd hr (by simp)
                    | vOp u =>
                      simp only [] at h
                      obtain ⟨rfl, hr⟩ := Prod.mk.inj h
                      exact absurd hr (by simp)
                    | vOpt u =>
                      simp only [] at h
                      obtain ⟨rfl, hr⟩ := Prod.mk.inj h
                      exact absurd hr (by simp)
                    | vCtrls u =>
                      simp only [] at h
                      obtain ⟨rfl, hr⟩ := Prod.mk.inj h
                      exact absurd hr (by simp)
              | vT u =>
                simp only [] at h
                obtain ⟨rfl, hr⟩ := Prod.mk.inj h
                exact absurd hr (by simp)
              | vOp u =>
                simp only [] at h
                obtain ⟨rfl, hr⟩ := Prod.mk.inj h
                exact absurd hr (by simp)
              | vTs u =>
                simp only [] at h
                obtain ⟨rfl, hr⟩ := Prod.mk.inj h
                exact absurd hr (by simp)
              | vCtrls u =>
                simp only [] at h
                obtain ⟨rfl, hr⟩ := Prod.mk.inj h
                exact absurd hr (by simp)
        | vT u =>
          simp only [] at h
          obtain ⟨rfl, hr⟩ := Prod.mk.inj h
          exact absurd hr (by simp)
        | vOp u =>
          simp only [] at h
          obtain ⟨rfl, hr⟩ := Prod.mk.inj h
          exact absurd hr (by simp)
        | vOpt u =>
          simp only [] at h
          obtain ⟨rfl, hr⟩ := Prod.mk.inj h
          exact absurd hr (by simp)
        | vTs u =>
          simp only [] at h
          obtain ⟨rfl, hr⟩ := Prod.mk.inj h
          exact absurd hr (by simp)

theorem transform_invariant (ctx : Ctx) (m : Nat → Nat)
    (hrank : RankOk ctx m) : ∀ f, InvMotive ctx m f := by
  intro f
  induction f with
  | zero =>
    intro s task s' v h _ _
    simp only [transform] at h
    obtain ⟨rfl, hr⟩ := Prod.mk.inj h
    exact absurd hr (by simp)
  | succ f ihf =>
    intro s task s' v h hJ hpre
    cases task with
    | tT t => exact inv_step_tT ctx m f ihf s t s' v h hJ hpre
    | tOp o => exact inv_step_tOp ctx m f ihf s o s' v h hJ hpre
    | tIf o? keep => exact inv_step_tIf ctx m f ihf s o? keep s' v h hJ hpre
    | tCopy o => exact inv_step_tCopy ctx m hrank f ihf s o s' v h hJ hpre
    | tTs ts => exact inv_step_tTs ctx m f ihf ts s s' v h hJ hpre
    | tCtrls cs => exact inv_step_tCtrls ctx m f ihf cs s s' v h hJ hpre

theorem transform_t_list_inv (ctx : Ctx) (m : Nat → Nat)
    (hrank : RankOk ctx m) (fuel : Nat) :
    ∀ (l : List Tensor) (s s' : TState) (u : Unit),
      transform_t_list ctx fuel s l = (s', .ok u) →
      Jinv ctx s → (∀ a, ¬ activeO s a) → (∀ t, ¬ activeT s t) →
      Jinv ctx s' ∧ (∀ a, ¬ activeO s' a) ∧ (∀ t, ¬ activeT s' t) := by
  intro l
  induction l with
  | nil =>
    intro s s' u h hJ hnaO hnaT
    simp only [transform_t_list] at h
    obtain ⟨rfl, _⟩ := Prod.mk.inj h
    exact ⟨hJ, hnaO, hnaT⟩
  | cons t rest ihl =>
    intro s s' u h hJ hnaO hnaT
    simp only [transform_t_list] at h
    cases h1 : transform ctx fuel s (.tT t) with
    | mk s2 r2 =>
      rw [h1] at h
      cases r2 with
      | error e =>
        simp only [] at h
        obtain ⟨rfl, hr⟩ := Prod.mk.inj h
        exact absurd hr (by simp)
      | ok v =>
        simp only [] at h
        obtain ⟨hJ2, hps2, _⟩ :=
          transform_invariant ctx m hrank fuel s (.tT t) s2 v h1 hJ
            (fun _ => ⟨fun a ha => absurd ha (hnaO a),
                       fun w hw => absurd hw (hnaT w)⟩)
        exact ihl s2 s' u h hJ2
          (fun a ha => absurd ((hps2.2.2.2.2.1 a).mp ha) (hnaO a))
          (fun w hw => absurd ((hps2.2.2.2.2.2 w).mp hw) (hnaT w))

theorem transform_op_list_inv (ctx : Ctx) (m : Nat → Nat)
    (hrank : RankOk ctx m) (fuel : Nat) :
    ∀ (l : List Nat) (s s' : TState) (u : Unit),
      transform_op_list ctx fuel s l = (s', .ok u) →
      (∀ o ∈ l, o ∈ ctx.sgv.ops) →
      Jinv ctx s → (∀ a, ¬ activeO s a) → (∀ t, ¬ activeT s t) →
      Jinv ctx s' ∧ (∀ a, ¬ activeO s' a) ∧ (∀ t, ¬ activeT s' t) := by
  intro l
  induction l with
  | nil =>
    intro s s' u h _ hJ hnaO hnaT
    simp only [transform_op_list] at h
    obtain ⟨rfl, _⟩ := Prod.mk.inj h
    exact ⟨hJ, hnaO, hnaT⟩
  | cons o rest ihl =>
    intro s s' u h hlm hJ hnaO hnaT
    simp only [transform_op_list] at h
    cases h1 : transform ctx fuel s (.tOp o) with
    | mk s2 r2 =>
      rw [h1] at h
      cases r2 with
      | error e =>
        simp only [] at h
        obtain ⟨rfl, hr⟩ := Prod.mk.inj h
        exact absurd hr (by simp)
      | ok v =>
        simp only [] at h
        obtain ⟨hJ2, hps2, _⟩ :=
          transform_invariant ctx m hrank fuel s (.tOp o) s2 v h1 hJ
            ⟨hlm o (by simp), fun a ha => absurd ha (hnaO a),
             fun w hw => absurd hw (hnaT w)⟩
        exact ihl s2 s' u h (fun o' ho' => hlm o' (by simp [ho'])) hJ2
          (fun a ha => absurd ((hps2.2.2.2.2.1 a).mp ha) (hnaO a))
          (fun w hw => absurd ((hps2.2.2.2.2.2 w).mp hw) (hnaT w))

theorem Jinv_initState (ctx : Ctx) : Jinv ctx (initState ctx) := by
  refine ⟨List.nodup_nil, List.nodup_nil, ?_, ?_, ?_, ?_⟩
  · intro o ho
    exact absurd ho (by simp [initState])
  · intro o o_ hlk
    exact absurd hlk (by simp [initState, alookup])
  · intro t t_ hlk
    exact absurd hlk (by simp [initState, alookup])
  · intro t ht _
    exact absurd ht (by simp [initState])

/-- The invariant facts at the end of a successful call: the structural
invariant holds and no element is left active. -/
theorem transformerRun_inv (ctx : Ctx) (m : Nat → Nat)
    (hrank : RankOk ctx m) (fuel : Nat) (s : TState) (sgvF : SubGraphView)
    (h : transformerRun ctx fuel = (s, .ok sgvF)) :
    Jinv ctx s ∧ (∀ a, ¬ activeO s a) ∧ (∀ t, ¬ activeT s t) := by
  simp only [transformerRun] at h
  cases hfwd : transform_t_list ctx fuel (initState ctx) ctx.sgv.outputs with
  | mk s1 r1 =>
    rw [hfwd] at h
    cases r1 with
    | error e =>
      simp only [] at h
      obtain ⟨rfl, hr⟩ := Prod.mk.inj h
      exact absurd hr (by simp)
    | ok u1 =>
      simp only [] at h
      cases hroots : transform_op_list ctx fuel s1 (remainingRoots ctx s1) with
      | mk s2 r2 =>
        rw [hroots] at h
        cases r2 with
        | error e =>
          simp only [] at h
          obtain ⟨rfl, hr⟩ := Prod.mk.inj h
          exact absurd hr (by simp)
        | ok u2 =>
          simp only [] at h
          obtain ⟨heq, _⟩ := Prod.mk.inj h
          subst heq
          have hna0 : ∀ a, ¬ activeO (initState ctx) a := by
            intro a ha
            exact absurd ha.1 (by simp [initState])
          have hnt0 : ∀ t, ¬ activeT (initState ctx) t := by
            intro t ht
            exact absurd ht.1 (by simp [initState])
          obtain ⟨hJ1, hna1, hnt1⟩ :=
            transform_t_list_inv ctx m hrank fuel ctx.sgv.outputs
              (initState ctx) s1 u1 hfwd (Jinv_initState ctx) hna0 hnt0
          exact transform_op_list_inv ctx m hrank fuel
            (remainingRoots ctx s1) s1 s2 u2 hroots
            (fun o ho => by
              simp only [remainingRoots, List.mem_filter] at ho
              exact ho.1.1)
            hJ1 hna1 hnt1

/-- C1: for every Transformer call on a subgraph whose member dependency
graph (data edges, control edges and original-op backlinks) admits a
ranking function - the spec's standing cycle-free assumption - and for
every successful run, each original operation is translated exactly once
if it is translated at all: the operation-copy handler invocation count
of an operation is 1 when the operation has an entry in the operation
translation table and 0 otherwise; likewise each original tensor's
translation body runs exactly once when the tensor has an entry in the
tensor translation table and never otherwise.  The tables are consulted
before any translation (the memo check precedes the handler call) and
filled monotonically (entries are only added, never removed). -/
theorem c1_exactly_once_translation :
    ∀ (ctx : Ctx) (m : Nat → Nat), RankOk ctx m →
      ∀ (fuel : Nat) (s : TState) (sgvF : SubGraphView),
        transformerRun ctx fuel = (s, .ok sgvF) →
        (∀ o : Nat, s.opLog.count o =
          if (alookup s.transformedOps o).isSome then 1 else 0) ∧
        (∀ t : Tensor, s.tLog.count t =
          if (alookup s.transformedTs t).isSome then 1 else 0) := by
  intro ctx m hrank fuel s sgvF h
  obtain ⟨⟨hnodO, hnodT, _, hopslog, htslog, _⟩, hnaO, hnaT⟩ :=
    transformerRun_inv ctx m hrank fuel s sgvF h
  constructor
  · intro o
    cases hsome : alookup s.transformedOps o with
    | some o_ =>
      simp only [Option.isSome, if_true]
      exact List.count_eq_one_of_mem hnodO (hopslog o o_ hsome)
    | none =>
      simp only [Option.isSome]
      rw [if_neg (by simp)]
      rw [List.count_eq_zero]
      intro hmem
      exact hnaO o ⟨hmem, hsome⟩
  · intro t
    cases hsome : alookup s.transformedTs t with
    | some t_ =>
      simp only [Option.isSome, if_true]
      exact List.count_eq_one_of_mem hnodT (htslog t t_ hsome)
    | none =>
      simp only [Option.isSome]
      rw [if_neg (by simp)]
      rw [List.count_eq_zero]
      intro hmem
      exact hnaT t ⟨hmem, hsome⟩

/-- Witness for C1: in the concrete diamond-graph call, the shared
dependency (operation 0, consumed by both middle operations) has its
handler invoked exactly once, and its output tensor is translated
exactly once. -/
theorem c1_exactly_once_translation_witness :
    (transformerRun diamondCtx 30).1.opLog.count 0 = 1 ∧
    (transformerRun diamondCtx 30).1.tLog.count ⟨0, 0⟩ = 1 := by
  rcases hrun : transformerRun diamondCtx 30 with ⟨s, r⟩
  cases r with
  | error e =>
    have hok : (transformerRun diamondCtx 30).2.isOk = true := by decide
    rw [hrun] at hok
    simp [Except.isOk, Except.toBool] at hok
  | ok sgvF =>
    have hc := c1_exactly_once_translation diamondCtx diamondRank
      (by decide) 30 s sgvF hrun
    have hs : (transformerRun diamondCtx 30).1 = s := by rw [hrun]
    have hsome : (alookup s.transformedOps 0).isSome = true := by
      rw [← hs]
      decide
    have hsomet : (alookup s.transformedTs ⟨0, 0⟩).isSome = true := by
      rw [← hs]
      decide
    constructor
    · simp only []
      rw [hc.1 0, if_pos hsome]
    · simp only []
      rw [hc.2 ⟨0, 0⟩, if_pos hsomet]

theorem new_name_no_fuel (scope scope_ nm : String) (e : TErr)
    (h : new_name scope scope_ nm = .error e) : e ≠ .fuel := by
  rw [new_name] at h
  split at h
  · exact absurd h (by simp)
  · obtain rfl := (Except.error.inj h).symm
    simp

theorem assign_no_fuel (ctx : Ctx) :
    ∀ (cols : List (String × List GElem)) (s : TState) (e e_ : GElem)
      (s' : TState) (er : TErr),
      assign_renamed_collections ctx s cols e e_ = (s', .error er) →
      er ≠ .fuel := by
  intro cols
  induction cols with
  | nil =>
    intro s e e_ s' er h
    simp only [assign_renamed_collections] at h
    obtain ⟨_, hr⟩ := Prod.mk.inj h
    exact absurd hr (by simp)
  | cons p rest ih =>
    intro s e e_ s' er h
    obtain ⟨nm, es⟩ := p
    by_cases he : e ∈ es
    · simp only [assign_renamed_collections, if_pos he] at h
      cases hnn : new_name ctx.scope ctx.scope_ nm with
      | error er0 =>
        rw [hnn] at h
        obtain ⟨_, hr⟩ := Prod.mk.inj h
        have hee := Except.error.inj hr
        subst hee
        exact new_name_no_fuel _ _ _ _ hnn
      | ok nm_ =>
        rw [hnn] at h
        exact ih _ e e_ s' er h
    · simp only [assign_renamed_collections, if_neg he] at h
      exact ih s e e_ s' er h

theorem finishT_no_fuel (ctx : Ctx) (s : TState) (t t_ : Tensor)
    (s' : TState) (er : TErr)
    (h : finishT ctx s t t_ = (s', .error er)) : er ≠ .fuel := by
  by_cases hne : t = t_
  · rw [finishT, if_neg (by simp [hne])] at h
    obtain ⟨_, hr⟩ := Prod.mk.inj h
    exact absurd hr (by simp)
  · rw [finishT, if_pos hne] at h
    cases hasn : assign_renamed_collections ctx s ctx.srcGraph.collections
        (.tsE t) (.tsE t_) with
    | mk s1 r1 =>
      rw [hasn] at h
      cases r1 with
      | error er0 =>
        obtain ⟨_, hr⟩ := Prod.mk.inj h
        have hee := Except.error.inj hr
        subst hee
        exact assign_no_fuel ctx _ s _ _ s1 er0 hasn
      | ok u =>
        obtain ⟨_, hr⟩ := Prod.mk.inj h
        exact absurd hr (by simp)

/-- Fuel sufficiency conditions for each traversal task, relative to a
ranking function `m` and a bound `L` on per-operation input and
control-input list lengths. -/
def CondFor (ctx : Ctx) (m : Nat → Nat) (L : Nat) (f : Nat) : TTask → Prop
  | .tOp o => o ∈ ctx.sgv.ops ∧ (L + 8) * (m o) + L + 4 ≤ f
  | .tCopy o => o ∈ ctx.sgv.ops ∧ (L + 8) * (m o) + L + 3 ≤ f
  | .tT t => 1 ≤ f ∧ (t.op ∈ ctx.sgv.ops → (L + 8) * (m t.op) + L + 5 ≤ f)
  | .tIf o? _ => 1 ≤ f ∧
      (∀ o, o? = some o → o ∈ ctx.sgv.ops → (L + 8) * (m o) + L + 5 ≤ f)
  | .tTs ts => ts.length + 1 ≤ f ∧
      (∀ t ∈ ts, t.op ∈ ctx.sgv.ops →
        ts.length + (L + 8) * (m t.op) + L + 5 ≤ f)
  | .tCtrls cs => cs.length + 1 ≤ f ∧
      (∀ c ∈ cs, c ∈ ctx.sgv.ops →
        cs.length + (L + 8) * (m c) + L + 5 ≤ f)

theorem rank_mul_step (L a b : Nat) (h : a < b) :
    (L + 8) * a + (L + 8) ≤ (L + 8) * b := by
  have h2 : (L + 8) * (a + 1) ≤ (L + 8) * b := Nat.mul_le_mul_left _ h
  rw [Nat.mul_succ] at h2
  exact h2

theorem transform_complete (ctx : Ctx) (m : Nat → Nat) (L : Nat)
    (hrank : RankOk ctx m)
    (HL : ∀ op ∈ ctx.srcGraph.ops,
      op.controlInputs.length ≤ L ∧ op.inputs.length ≤ L) :
    ∀ (f : Nat) (s : TState) (task : TTask), CondFor ctx m L f task →
      (transform ctx f s task).2 ≠ .error .fuel := by
  intro f
  induction f with
  | zero =>
    intro s task hcond
    cases task with
    | tT t => exact absurd hcond.1 (by omega)
    | tOp o => exact absurd hcond.2 (by omega)
    | tIf o? keep => exact absurd hcond.1 (by omega)
    | tCopy o => exact absurd hcond.2 (by omega)
    | tTs ts => exact absurd hcond.1 (by omega)
    | tCtrls cs => exact absurd hcond.1 (by omega)
  | succ f ihf =>
    intro s task hcond
    cases task with
    | tT t =>
      obtain ⟨h1, h2⟩ := hcond
      simp only [transform]
      cases halk : alookup s.transformedTs t with
      | some t_ =>
        simp
      | none =>
        simp only []
        by_cases hmem : t.op ∈ ctx.sgv.ops
        · rw [if_pos hmem]
          have hnf := ihf { s with tLog := s.tLog ++ [t] } (.tOp t.op)
            ⟨hmem, by have := h2 hmem; omega⟩
          cases hrec : transform ctx f { s with tLog := s.tLog ++ [t] }
              (.tOp t.op) with
          | mk s2 r2 =>
            rw [hrec] at hnf
            cases r2 with
            | error e =>
              simp only []
              exact hnf
            | ok v2 =>
              cases v2 with
              | vOp o_ =>
                simp only []
                cases hfin : finishT ctx s2 t ⟨o_, t.idx⟩ with
                | mk s3 r3 =>
                  cases r3 with
                  | error er =>
                    exact fun hc =>
                      finishT_no_fuel ctx s2 t ⟨o_, t.idx⟩ s3 er hfin
                        (Except.error.inj hc)
                  | ok v3 => simp
              | vT u => simp
              | vOpt u => simp
              | vTs u => simp
              | vCtrls u => simp
        · rw [if_neg hmem]
          by_cases hin : t ∈ ctx.sgv.inputs
          · rw [if_pos hin]
            cases happ : applyExtHandler ctx { s with tLog := s.tLog ++ [t] } t with
            | mk s2 t_ =>
              simp only []
              cases hfin : finishT ctx s2 t t_ with
              | mk s3 r3 =>
                cases r3 with
                | error er =>
                  exact fun hc =>
                    finishT_no_fuel ctx s2 t t_ s3 er hfin (Except.error.inj hc)
                | ok v3 => simp
          · rw [if_neg hin]
            cases hkp : keep_t_if_possible ctx { s with tLog := s.tLog ++ [t] } t with
            | mk s2 t_ =>
              simp only []
              cases hfin : finishT ctx s2 t t_ with
              | mk s3 r3 =>
                cases r3 with
                | error er =>
                  exact fun hc =>
                    finishT_no_fuel ctx s2 t t_ s3 er hfin (Except.error.inj hc)
                | ok v3 => simp
    | tOp o =>
      obtain ⟨hmem, hfu⟩ := hcond
      simp only [transform]
      cases halk : alookup s.transformedOps o with
      | some o_ =>
        simp
      | none =>
        simp only []
        have hnf := ihf s (.tCopy o) ⟨hmem, by omega⟩
        cases hrec : transform ctx f s (.tCopy o) with
        | mk s2 r2 =>
          rw [hrec] at hnf
          cases r2 with
          | error e =>
            simp only []
            exact hnf
          | ok v2 =>
            cases v2 with
            | vOp o_ =>
              simp only []
              by_cases hne : o = o_
              · rw [if_neg (by simp [hne])]
                simp
              · rw [if_pos hne]
                cases hasn : assign_renamed_collections ctx s2
                    ctx.srcGraph.collections (.opE o) (.opE o_) with
                | mk s3 r3 =>
                  simp only []
                  cases r3 with
                  | error er =>
                    exact fun hc =>
                      assign_no_fuel ctx _ s2 _ _ s3 er hasn (Except.error.inj hc)
                  | ok u => simp
            | vT u => simp
            | vOpt u => simp
            | vTs u => simp
            | vCtrls u => simp
    | tIf o? keep =>
      obtain ⟨h1, h2⟩ := hcond
      cases o? with
      | none =>
        simp only [transform]
        simp
      | some o =>
        simp only [transform]
        by_cases hmem : o ∈ ctx.sgv.ops
        · rw [if_pos hmem]
          have hnf := ihf s (.tOp o) ⟨hmem, by have := h2 o rfl hmem; omega⟩
          cases hrec : transform ctx f s (.tOp o) with
          | mk s2 r2 =>
            rw [hrec] at hnf
            cases r2 with
            | error e =>
              simp only []
              exact hnf
            | ok v2 =>
              cases v2 with
              | vOp o_ => simp
              | vT u => simp
              | vOpt u => simp
              | vTs u => simp
              | vCtrls u => simp
        · rw [if_neg hmem]
          split
          · simp
          · simp
    | tTs ts =>
      obtain ⟨h1, h2⟩ := hcond
      cases ts with
      | nil =>
        simp only [transform]
        simp
      | cons t rest =>
        simp only [transform]
        have hnf1 := ihf s (.tT t)
          ⟨by simp at h1; omega,
           fun hm => by have := h2 t (by simp) hm; simp at this h1 ⊢; omega⟩
        cases hrec : transform ctx f s (.tT t) with
        | mk s2 r2 =>
          rw [hrec] at hnf1
          cases r2 with
          | error e =>
            simp only []
            exact hnf1
          | ok v2 =>
            cases v2 with
            | vT t_ =>
              simp only []
              have hnf2 := ihf s2 (.tTs rest)
                ⟨by simp at h1; omega,
                 fun u hu hm => by
                   have := h2 u (by simp [hu]) hm
                   simp at this ⊢
                   omega⟩
              cases hrec2 : transform ctx f s2 (.tTs rest) with
              | mk s3 r3 =>
                rw [hrec2] at hnf2
                cases r3 with
                | error e =>
                  simp only []
                  exact hnf2
                | ok v3 =>
                  cases v3 with
                  | vTs rest_ => simp
                  | vT u => simp
                  | vOp u => simp
                  | vOpt u => simp
                  | vCtrls u => simp
            | vOp u => simp
            | vOpt u => simp
            | vTs u => simp
            | vCtrls u => simp
    | tCtrls cs =>
      obtain ⟨h1, h2⟩ := hcond
      cases cs with
      | nil =>
        simp only [transform]
        simp
      | cons c rest =>
        simp only [transform]
        have hnf1 := ihf s (.tIf (some c) true)
          ⟨by simp at h1; omega,
           fun o ho hm => by
             have hco := Option.some.inj ho
             subst hco
             have := h2 c (by simp) hm
             simp at this h1 ⊢
             omega⟩
        cases hrec : transform ctx f s (.tIf (some c) true) with
        | mk s2 r2 =>
          rw [hrec] at hnf1
          cases r2 with
          | error e =>
            simp only []
            exact hnf1
          | ok v2 =>
            cases v2 with
            | vOpt c_ =>
              simp only []
              have hnf2 := ihf s2 (.tCtrls rest)
                ⟨by simp at h1; omega,
                 fun u hu hm => by
                   have := h2 u (by simp [hu]) hm
                   simp at this ⊢
                   omega⟩
              cases hrec2 : transform ctx f s2 (.tCtrls rest) with
              | mk s3 r3 =>
                rw [hrec2] at hnf2
                cases r3 with
                | error e =>
                  simp only []
                  exact hnf2
                | ok v3 =>
                  cases v3 with
                  | vCtrls rest_ => simp
                  | vT u => simp
                  | vOp u => simp
                  | vOpt u => simp
                  | vTs u => simp
            | vT u => simp
            | vOp u => simp
            | vTs u => simp
            | vCtrls u => simp
    | tCopy o =>
      obtain ⟨hmem, hfu⟩ := hcond
      simp only [transform]
      cases hop : ctx.srcGraph.getOp o with
      | none =>
        simp
      | some op =>
        simp only []
        have hopmem : op ∈ ctx.srcGraph.ops := List.mem_of_find?_eq_some hop
        obtain ⟨hLc, hLi⟩ := HL op hopmem
        have hnf1 := ihf { s with opLog := s.opLog ++ [o] }
          (.tCtrls op.controlInputs)
          ⟨by omega,
           fun c hc hcm => by
             have hdc : dependsB ctx.srcGraph o c = true := by
               simp only [dependsB, hop, Bool.or_eq_true, decide_eq_true_eq,
                 List.any_eq_true]
               exact Or.inl (Or.inl hc)
             have hmul := rank_mul_step L (m c) (m o) (hrank o hmem c hcm hdc)
             omega⟩
        cases hrec1 : transform ctx f { s with opLog := s.opLog ++ [o] }
            (.tCtrls op.controlInputs) with
        | mk s2 r2 =>
          rw [hrec1] at hnf1
          cases r2 with
          | error e =>
            simp only []
            exact hnf1
          | ok v2 =>
            cases v2 with
            | vCtrls cis =>
              simp only []
              have hnf2 := ihf s2 (.tIf op.originalOp true)
                ⟨by omega,
                 fun b hb hbm => by
                   have hdb : dependsB ctx.srcGraph o b = true := by
                     simp only [dependsB, hop, Bool.or_eq_true,
                       decide_eq_true_eq, List.any_eq_true]
                     exact Or.inl (Or.inr hb)
                   have hmul := rank_mul_step L (m b) (m o) (hrank o hmem b hbm hdb)
                   omega⟩
              cases hrec2 : transform ctx f s2 (.tIf op.originalOp true) with
              | mk s3 r3 =>
                rw [hrec2] at hnf2
                cases r3 with
                | error e =>
                  simp only []
                  exact hnf2
                | ok v3 =>
                  cases v3 with
                  | vOpt orig_ =>
                    simp only []
                    have hnf3 := ihf s3 (.tTs op.inputs)
                      ⟨by omega,
                       fun t ht htm => by
                         have hdt : dependsB ctx.srcGraph o t.op = true := by
                           simp only [dependsB, hop, Bool.or_eq_true,
                             decide_eq_true_eq, List.any_eq_true]
                           exact Or.inr ⟨t, ht, rfl⟩
                         have hmul := rank_mul_step L (m t.op) (m o)
                           (hrank o hmem t.op htm hdt)
                         omega⟩
                    cases hrec3 : transform ctx f s3 (.tTs op.inputs) with
                    | mk s4 r4 =>
                      rw [hrec3] at hnf3
                      cases r4 with
                      | error e =>
                        simp only []
                        exact hnf3
                      | ok v4 =>
                        cases v4 with
                        | vTs ins_ =>
                          simp only []
                          cases hnn : new_name ctx.scope ctx.scope_ op.name with
                          | error e =>
                            simp only []
                            exact fun hc =>
                              new_name_no_fuel _ _ _ _ hnn (Except.error.inj hc)
                          | ok nm0 =>
                            simp
                        | vT u => simp
                        | vOp u => simp
                        | vOpt u => simp
                        | vCtrls u => simp
                  | vT u => simp
                  | vOp u => simp
                  | vTs u => simp
                  | vCtrls u => simp
            | vT u => simp
            | vOp u => simp
            | vOpt u => simp
            | vTs u => simp

theorem transform_t_list_complete (ctx : Ctx) (m : Nat → Nat) (L : Nat)
    (hrank : RankOk ctx m)
    (HL : ∀ op ∈ ctx.srcGraph.ops,
      op.controlInputs.length ≤ L ∧ op.inputs.length ≤ L) (fuel : Nat)
    (hfuel : 1 ≤ fuel) :
    ∀ (l : List Tensor) (s : TState),
      (∀ t ∈ l, t.op ∈ ctx.sgv.ops → (L + 8) * (m t.op) + L + 5 ≤ fuel) →
      (transform_t_list ctx fuel s l).2 ≠ .error .fuel := by
  intro l
  induction l with
  | nil =>
    intro s _
    simp only [transform_t_list]
    simp
  | cons t rest ihl =>
    intro s hl
    simp only [transform_t_list]
    have hnf := transform_complete ctx m L hrank HL fuel s (.tT t)
      ⟨hfuel, fun hm => hl t (by simp) hm⟩
    cases h1 : transform ctx fuel s (.tT t) with
    | mk s2 r2 =>
      rw [h1] at hnf
      cases r2 with
      | error e =>
        simp only []
        simpa using hnf
      | ok v =>
        simp only []
        exact ihl s2 (fun u hu hm => hl u (by simp [hu]) hm)

theorem transform_op_list_complete (ctx : Ctx) (m : Nat → Nat) (L : Nat)
    (hrank : RankOk ctx m)
    (HL : ∀ op ∈ ctx.srcGraph.ops,
      op.controlInputs.length ≤ L ∧ op.inputs.length ≤ L) (fuel : Nat) :
    ∀ (l : List Nat) (s : TState),
      (∀ o ∈ l, o ∈ ctx.sgv.ops ∧ (L + 8) * (m o) + L + 4 ≤ fuel) →
      (transform_op_list ctx fuel s l).2 ≠ .error .fuel := by
  intro l
  induction l with
  | nil =>
    intro s _
    simp only [transform_op_list]
    simp
  | cons o rest ihl =>
    intro s hl
    simp only [transform_op_list]
    have hnf := transform_complete ctx m L hrank HL fuel s (.tOp o)
      ⟨(hl o (by simp)).1, (hl o (by simp)).2⟩
    cases h1 : transform ctx fuel s (.tOp o) with
    | mk s2 r2 =>
      rw [h1] at hnf
      cases r2 with
      | error e =>
        simp only []
        simpa using hnf
      | ok v =>
        simp only []
        exact ihl s2 (fun u hu => hl u (by simp [hu]))

/-- C3 counterexample: control-only edges ARE followed as a translation
dependency.  In `ctrlOnlyGraph` the data-edge dependency graph is a DAG
(there are no data edges at all); member operation 0 has an output
tensor (so the root-completion pass skips it), is unreachable through
data edges from the boundary output, and was never "already translated";
yet after a successful call it has an operation-table entry and a logged
operation-copy handler invocation, acquired by following the control
edge from operation 1. -/
theorem c3_counterexample :
    (transformerRun ctrlOnlyCtx 20).2.isOk = true ∧
    (alookup (transformerRun ctrlOnlyCtx 20).1.transformedOps 0).isSome = true ∧
    (transformerRun ctrlOnlyCtx 20).1.opLog.count 0 = 1 := by
  refine ⟨?_, ?_, ?_⟩ <;> decide

/-- C3 (amended): for every transformation call on a subgraph whose
member dependency graph over data edges, control edges and original-op
backlinks admits a ranking function (in particular, whose combined
dependency graph is acyclic - control edges to member operations are
followed as full translation dependencies, as the counterexample shows,
so acyclicity of the data edges alone does not suffice), the recursive
memoized translation walk terminates: with fuel at least
`(L+8)·B + L + 5` (`L` bounding every operation's input and
control-input list lengths, `B` bounding member ranks) the walk never
exhausts its fuel, and on success the number of operation-copy handler
invocations (= operation translations) is bounded by the number of
member operations. -/
theorem c3_walk_termination_and_bound :
    ∀ (ctx : Ctx) (m : Nat → Nat) (L B : Nat),
      RankOk ctx m →
      (∀ op ∈ ctx.srcGraph.ops,
        op.controlInputs.length ≤ L ∧ op.inputs.length ≤ L) →
      (∀ o ∈ ctx.sgv.ops, m o ≤ B) →
      ∀ fuel, (L + 8) * B + L + 5 ≤ fuel →
        (transformerRun ctx fuel).2 ≠ .error .fuel ∧
        (∀ s sgvF, transformerRun ctx fuel = (s, .ok sgvF) →
          s.opLog.length ≤ ctx.sgv.ops.length) := by
  intro ctx m L B hrank HL hB fuel hfuel
  have hrankcond : ∀ o ∈ ctx.sgv.ops, (L + 8) * (m o) + L + 5 ≤ fuel := by
    intro o hmem
    have h1 : (L + 8) * (m o) ≤ (L + 8) * B :=
      Nat.mul_le_mul_left _ (hB o hmem)
    omega
  constructor
  · simp only [transformerRun]
    have hnf1 := transform_t_list_complete ctx m L hrank HL fuel (by omega)
      ctx.sgv.outputs (initState ctx)
      (fun t _ hm => hrankcond t.op hm)
    cases hfwd : transform_t_list ctx fuel (initState ctx) ctx.sgv.outputs with
    | mk s1 r1 =>
      rw [hfwd] at hnf1
      cases r1 with
      | error e =>
        simp only []
        simpa using hnf1
      | ok u1 =>
        simp only []
        have hnf2 := transform_op_list_complete ctx m L hrank HL fuel
          (remainingRoots ctx s1) s1
          (fun o ho => by
            have hmem : o ∈ ctx.sgv.ops := by
              simp only [remainingRoots, List.mem_filter] at ho
              exact ho.1.1
            exact ⟨hmem, by have := hrankcond o hmem; omega⟩)
        cases hroots : transform_op_list ctx fuel s1 (remainingRoots ctx s1) with
        | mk s2 r2 =>
          rw [hroots] at hnf2
          cases r2 with
          | error e =>
            simp only []
            simpa using hnf2
          | ok u2 =>
            simp only []
            simp
  · intro s sgvF hrun
    obtain ⟨⟨hnodO, _, hlogmem, _, _, _⟩, _, _⟩ :=
      transformerRun_inv ctx m hrank fuel s sgvF hrun
    have h1 : s.opLog.toFinset.card = s.opLog.length :=
      List.toFinset_card_of_nodup hnodO
    have h2 : s.opLog.toFinset ⊆ ctx.sgv.ops.toFinset := by
      intro x hx
      rw [List.mem_toFinset] at hx ⊢
      exact hlogmem x hx
    have h3 := Finset.card_le_card h2
    have h4 := ctx.sgv.ops.toFinset_card_le
    omega

/-- Witness for the amended C3: the concrete control-edge call, ranked
by the identity function, terminates within the computed fuel bound and
logs at most one handler invocation per member operation. -/
theorem c3_walk_termination_and_bound_witness :
    (transformerRun ctrlOnlyCtx 20).2 ≠ .error .fuel ∧
    (transformerRun ctrlOnlyCtx 20).1.opLog.length
      ≤ ctrlOnlyCtx.sgv.ops.length := by
  have hc := c3_walk_termination_and_bound ctrlOnlyCtx (fun o => o) 1 1
    (by decide) (by decide) (by decide) 20 (by decide)
  refine ⟨hc.1, ?_⟩
  rcases hrun : transformerRun ctrlOnlyCtx 20 with ⟨s, r⟩
  cases r with
  | error e =>
    have hok : (transformerRun ctrlOnlyCtx 20).2.isOk = true := by decide
    rw [hrun] at hok
    simp [Except.isOk, Except.toBool] at hok
  | ok sgvF =>
    have := hc.2 s sgvF hrun
    simpa using this
